import Mathlib

/-!
Shallow embedding of the pratincole Factorio production-calculator core
(`src/wiki/README.md` server code and `src/calculator/factorio-knowledge-graph.js`).

JavaScript numbers are modelled as exact rationals (`ℚ`); JS objects keyed by
strings are modelled as insertion-ordered association lists; JS `Set`s are
modelled as lists of keys with membership tests.  `x || d` on a possibly
absent / zero number is modelled by explicit helpers (`jsOr1`, `jsOrD`),
since `0` and `undefined` are both falsy in JS.
-/

namespace Pratincole

/-- An (item, amount) entry of a recipe's `ingredients` or `results` list. -/
structure RItem where
  name : String
  amount : ℚ
deriving DecidableEq

/-- A recipe as served by the wiki calculator: the JS object spread
`{key: recipeKey, ...recipe}` with `energy_required` possibly absent. -/
structure Recipe where
  key : String
  category : Option String := none
  energy_required : Option ℚ
  ingredients : List RItem
  results : List RItem
deriving DecidableEq

/-- The recipe collection `factorioData.recipes`, in object-key insertion order. -/
abbrev Dataset := List Recipe

/-- JS `x || 1` where `x` is a number: `0` is falsy. Used for `result.amount || 1`. -/
def jsOr1 (x : ℚ) : ℚ := if x = 0 then 1 else x

/-- JS `x || d` where `x` is a possibly absent number (`undefined` and `0` are falsy).
Used for `recipe.energy_required || 0.5`. -/
def jsOrD (x : Option ℚ) (d : ℚ) : ℚ :=
  match x with
  | none => d
  | some v => if v = 0 then d else v

/-- JS `Math.round x` (`= ⌊x + 1/2⌋` for every finite number). -/
def jsRound (x : ℚ) : ℤ := ⌊x + 1/2⌋

/-- `Math.round (x * 100) / 100`: round to two decimal places. -/
def round2 (x : ℚ) : ℚ := (jsRound (x * 100) : ℚ) / 100

/-- `Math.ceil (x * 100) / 100`: ceil to two decimal places. -/
def ceil2 (x : ℚ) : ℚ := ((⌈x * 100⌉ : ℤ) : ℚ) / 100

/-- The fixed crafting speed of `assembling-machine-3` used everywhere. -/
def craftingSpeed : ℚ := 5/4

/-- `findRecipeForItem`: first recipe (in dataset order) whose `results`
list contains `itemName`. -/
def findRecipeForItem (d : Dataset) (itemName : String) : Option Recipe :=
  d.find? fun r => r.results.any fun res => res.name = itemName

/-- The primary output entry `recipe.results[0]` (dummy entry for a
malformed recipe with no results; the spec assumes ≥ 1 result). -/
def primaryResult (r : Recipe) : RItem := r.results.headD ⟨"", 0⟩

/-- `recipe.results[0].amount || 1`. -/
def outputAmountOf (r : Recipe) : ℚ := jsOr1 (primaryResult r).amount

/-- `recipe.energy_required || 0.5`. -/
def craftingTimeOf (r : Recipe) : ℚ := jsOrD r.energy_required (1/2)

/-! ## The aggregate-demand map (`calculateFullRequirements`)

The JS `requirements` object is an insertion-ordered string-keyed map;
we model it as an association list where updating an existing key keeps
its position and a new key is appended. -/

/-- The running per-item totals object `requirements`. -/
abbrev Reqs := List (String × ℚ)

/-- `requirements[name] = (requirements[name] || 0) + v`. -/
def upsertAdd (m : Reqs) (k : String) (v : ℚ) : Reqs :=
  if m.any fun p => p.1 = k then
    m.map fun p => if p.1 = k then (p.1, p.2 + v) else p
  else m ++ [(k, v)]

/-- Value stored for key `k` (JS `requirements[k]`). -/
def Reqs.get? : Reqs → String → Option ℚ
  | [], _ => none
  | p :: m, k => if p.1 = k then some p.2 else Reqs.get? m k

/-- `calculateFullRequirements(recipe, targetRate, requirements, seen)`.
The `seen` set of recipe keys is copied (`new Set(seen)`) at every recursive
branch; here `seen` is an immutable list so passing it down is the copy.
`fuel` makes the recursion structural; wrappers pass `d.length + 1`, which
covers the deepest possible descent (each level adds a distinct recipe key
to `seen`). -/
def calcFullReq (d : Dataset) : Nat → Recipe → ℚ → Reqs → List String → Reqs
  | 0, _, _, reqs, _ => reqs
  | fuel + 1, recipe, targetRate, reqs, seen =>
    if seen.contains recipe.key then reqs
    else
      let outputAmount := outputAmountOf recipe
      let seen' := recipe.key :: seen
      recipe.ingredients.foldl
        (fun reqs ing =>
          let amountNeeded := ing.amount * targetRate / outputAmount
          let reqs' := upsertAdd reqs ing.name amountNeeded
          match findRecipeForItem d ing.name with
          | some r' => calcFullReq d fuel r' amountNeeded reqs' seen'
          | none => reqs')
        reqs

/-- The body of the `forEach` over `recipe.ingredients` in
`calculateFullRequirements`, as a standalone step function. -/
def demandStep (d : Dataset) (fuel : Nat) (outputAmount targetRate : ℚ)
    (seen' : List String) (reqs : Reqs) (ing : RItem) : Reqs :=
  let amountNeeded := ing.amount * targetRate / outputAmount
  let reqs' := upsertAdd reqs ing.name amountNeeded
  match findRecipeForItem d ing.name with
  | some r' => calcFullReq d fuel r' amountNeeded reqs' seen'
  | none => reqs'

/-- Modelled from the spec: the aggregation policy the specification
describes for `calculateFullRequirements` — "amounts are rounded to two
decimal places at each aggregation step" as they are added into the
running per-item total.  This is a second definition following the spec's
words, for comparison with `calcFullReq`, which is translated from the
code. -/
def calcFullReqSpecRounded (d : Dataset) : Nat → Recipe → ℚ → Reqs → List String → Reqs
  | 0, _, _, reqs, _ => reqs
  | fuel + 1, recipe, targetRate, reqs, seen =>
    if seen.contains recipe.key then reqs
    else
      let outputAmount := outputAmountOf recipe
      let seen' := recipe.key :: seen
      recipe.ingredients.foldl
        (fun reqs ing =>
          let amountNeeded := ing.amount * targetRate / outputAmount
          let reqs' := upsertAdd reqs ing.name (round2 amountNeeded)
          match findRecipeForItem d ing.name with
          | some r' => calcFullReqSpecRounded d fuel r' amountNeeded reqs' seen'
          | none => reqs')
        reqs

/-- `computeAggregateDemand(targetItem, targetRate)` (spec name for running
`calculateFullRequirements` from the recipe resolved for the target):
`none` iff the target item has no producing recipe. -/
def computeAggregateDemand (d : Dataset) (itemName : String) (rate : ℚ) : Option Reqs :=
  (findRecipeForItem d itemName).map fun r => calcFullReq d (d.length + 1) r rate [] []

/-! ## `calculateRequirements` -/

/-- One element of the `ingredients` array returned by `calculateRequirements`. -/
structure IngInfo where
  name : String
  amountPerSecond : ℚ
  recipe : Option String
deriving DecidableEq

/-- One `{name, rate}` entry of the `fullRequirements` output array. -/
structure FullReq where
  name : String
  rate : ℚ
deriving DecidableEq

/-- Stable descending insertion for the JS stable
`.sort((a, b) => b.rate - a.rate)`: an element moves ahead only of
strictly smaller rates. -/
def insertByRateDesc (x : FullReq) : List FullReq → List FullReq
  | [] => [x]
  | y :: ys => if x.rate ≤ y.rate then y :: insertByRateDesc x ys else x :: y :: ys

/-- JS stable sort by descending `rate`. -/
def sortByRateDesc (l : List FullReq) : List FullReq :=
  l.foldl (fun acc x => insertByRateDesc x acc) []

/-- The value returned by `calculateRequirements`. -/
structure CalcResult where
  item : String
  targetRate : ℚ
  machinesNeeded : ℚ
  ingredients : List IngInfo
  craftingTime : ℚ
  recipe : String
  fullRequirements : List FullReq
deriving DecidableEq

/-- `calculateRequirements(recipe, targetRate)`. -/
def calculateRequirements (d : Dataset) (recipe : Recipe) (targetRate : ℚ) : CalcResult :=
  let craftingTime := craftingTimeOf recipe
  let outputItem := (primaryResult recipe).name
  let outputAmount := outputAmountOf recipe
  let machinesNeeded := targetRate * craftingTime / (outputAmount * craftingSpeed)
  let ingredients := recipe.ingredients.map fun ing =>
    { name := ing.name
      amountPerSecond := ing.amount * targetRate / outputAmount
      recipe := (findRecipeForItem d ing.name).map fun r => r.key }
  let fullRequirements := calcFullReq d (d.length + 1) recipe targetRate [] []
  { item := outputItem
    targetRate := targetRate
    machinesNeeded := ceil2 machinesNeeded
    ingredients := ingredients
    craftingTime := craftingTime
    recipe := recipe.key
    fullRequirements :=
      sortByRateDesc (fullRequirements.map fun p => { name := p.1, rate := round2 p.2 }) }

/-- The `/calculate` endpoint core: 404 (`none`) exactly when
`findRecipeForItem` fails; otherwise the `calculateRequirements` result. -/
def calcEndpoint (d : Dataset) (itemName : String) (rate : ℚ) : Option CalcResult :=
  match findRecipeForItem d itemName with
  | none => none
  | some recipe => some (calculateRequirements d recipe rate)

/-! ## `generateRecipeTree` -/

/-- A node of the recursive tree output.  The root carries
`{item, recipe, rate, machines, time, children}`; a child node starts as
`{item, rate}` and either receives `recipe/machines/time/children` from its
subtree or the tag `type: 'raw'`, so those fields are optional. -/
inductive TreeNode where
  | mk (item : String) (recipe : Option String) (rate : ℚ)
      (machines : Option ℚ) (time : Option ℚ) (ty : Option String)
      (children : List TreeNode)

/-- The `item` field of a tree node. -/
def TreeNode.item : TreeNode → String
  | .mk i _ _ _ _ _ _ => i

/-- The `recipe` field of a tree node. -/
def TreeNode.recipe : TreeNode → Option String
  | .mk _ r _ _ _ _ _ => r

/-- The `rate` field of a tree node. -/
def TreeNode.rate : TreeNode → ℚ
  | .mk _ _ r _ _ _ _ => r

/-- The `machines` field of a tree node. -/
def TreeNode.machines : TreeNode → Option ℚ
  | .mk _ _ _ m _ _ _ => m

/-- The `time` field of a tree node. -/
def TreeNode.time : TreeNode → Option ℚ
  | .mk _ _ _ _ t _ _ => t

/-- The `type` tag of a tree node (`some "raw"` on untagged raw leaves). -/
def TreeNode.ty : TreeNode → Option String
  | .mk _ _ _ _ _ t _ => t

/-- The `children` array of a tree node. -/
def TreeNode.children : TreeNode → List TreeNode
  | .mk _ _ _ _ _ _ c => c

/-- `generateRecipeTree(recipe, targetRate, depth)`: recursion is structural
on `depth` (`depth <= 0` stops after emitting the childless node; there is
no visited set). -/
def generateRecipeTree (d : Dataset) : Nat → Recipe → ℚ → TreeNode
  | 0, recipe, targetRate =>
    .mk (primaryResult recipe).name (some recipe.key) targetRate
      (some (ceil2 (targetRate * craftingTimeOf recipe /
        (outputAmountOf recipe * craftingSpeed))))
      (some (craftingTimeOf recipe)) none []
  | depth + 1, recipe, targetRate =>
    let outputAmount := outputAmountOf recipe
    .mk (primaryResult recipe).name (some recipe.key) targetRate
      (some (ceil2 (targetRate * craftingTimeOf recipe /
        (outputAmount * craftingSpeed))))
      (some (craftingTimeOf recipe)) none
      (recipe.ingredients.map fun ing =>
        let ingredientRate := ing.amount * targetRate / outputAmount
        match findRecipeForItem d ing.name with
        | some r' =>
          let sub := generateRecipeTree d depth r' ingredientRate
          .mk ing.name sub.recipe (round2 ingredientRate) sub.machines sub.time
            none sub.children
        | none =>
          .mk ing.name none (round2 ingredientRate) none none (some "raw") [])

/-- The `/tree` endpoint body: `generateRecipeTree(recipe, rate)` with the
default `depth = 5`. -/
def generateRecipeTreeDefault (d : Dataset) (recipe : Recipe) (rate : ℚ) : TreeNode :=
  generateRecipeTree d 5 recipe rate

/-- Height (number of levels) of a tree node. -/
def TreeNode.height : TreeNode → Nat
  | .mk _ _ _ _ _ _ children =>
    1 + (children.attach.map fun c => TreeNode.height c.1).foldl max 0
decreasing_by
  have := List.sizeOf_lt_of_mem c.2
  simp only [TreeNode.mk.sizeOf_spec]
  omega

/-! ## `generateSankeyData` -/

/-- A Sankey node `{name, id, type}` (`type` is `recipe`, `item` or `raw`). -/
structure SNode where
  name : String
  id : Nat
  ty : String
deriving DecidableEq

/-- A Sankey link `{source, target, value}` over node indices. -/
structure SLink where
  source : Nat
  target : Nat
  value : ℚ
deriving DecidableEq

/-- The `nodes`/`links` accumulators of `generateSankeyData` (the JS
`nodeMap` is the index of a name in `nodes`, which we compute directly). -/
structure SState where
  nodes : List SNode
  links : List SLink
deriving DecidableEq

/-- `addNode(name, type)`: appends a fresh `{name, id, type}` node unless
the name is present; returns the node's index. -/
def addSNode (st : SState) (name ty : String) : SState × Nat :=
  match st.nodes.findIdx? fun n => n.name = name with
  | some i => (st, i)
  | none => ({ st with nodes := st.nodes ++ [⟨name, st.nodes.length, ty⟩] }, st.nodes.length)

/-- `addLink(source, target, value)` with the `Math.max(0.01, value)` floor. -/
def addSLink (st : SState) (source target : Nat) (value : ℚ) : SState :=
  { st with links := st.links ++ [⟨source, target, max (1/100) value⟩] }

/-- `nodes[id].type = 'raw'`. -/
def setNodeRaw (st : SState) (id : Nat) : SState :=
  { st with nodes := st.nodes.map fun n => if n.id = id then { n with ty := "raw" } else n }

/-- `buildSankeyData(recipe, rate, currentDepth, visited)` inside
`generateSankeyData(recipe, targetRate, depth = 3)`.  `visited` is copied
(`new Set(visited)`) at each recursive branch; `fuel` makes the recursion
structural and the wrapper passes `depth + 2`, enough for the `currentDepth`
guard (`currentDepth` grows by 1 per level and recursion requires
`currentDepth < depth`). -/
def buildSankeyData (d : Dataset) (depth : Nat) :
    Nat → Recipe → ℚ → Nat → List String → SState → SState
  | 0, _, _, _, _, st => st
  | fuel + 1, recipe, rate, currentDepth, visited, st =>
    if currentDepth > depth then st
    else if visited.contains recipe.key then st
    else
      let outputAmount := outputAmountOf recipe
      let visited' := recipe.key :: visited
      let (st, recipeNodeId) := addSNode st ("Recipe: " ++ recipe.key) "recipe"
      let (st, outputNodeId) := addSNode st (primaryResult recipe).name "item"
      let st := addSLink st recipeNodeId outputNodeId rate
      recipe.ingredients.foldl
        (fun st ing =>
          let ingredientRate := ing.amount * rate / outputAmount
          let p := addSNode st ing.name "item"
          let st := addSLink p.1 p.2 recipeNodeId ingredientRate
          if currentDepth < depth then
            match findRecipeForItem d ing.name with
            | some r' =>
              buildSankeyData d depth fuel r' ingredientRate (currentDepth + 1) visited' st
            | none => setNodeRaw st p.2
          else st)
        st

/-- `generateSankeyData(recipe, targetRate, depth = 3)`. -/
def generateSankeyData (d : Dataset) (recipe : Recipe) (targetRate : ℚ)
    (depth : Nat := 3) : SState :=
  buildSankeyData d depth (depth + 2) recipe targetRate 0 [] ⟨[], []⟩

/-- The body of the ingredients `forEach` of `buildSankeyData`, as a
standalone step function. -/
def sankeyStep (d : Dataset) (depth fuel : Nat) (recipeNodeId : Nat)
    (outputAmount rate : ℚ) (currentDepth : Nat) (visited' : List String)
    (st : SState) (ing : RItem) : SState :=
  let ingredientRate := ing.amount * rate / outputAmount
  let p := addSNode st ing.name "item"
  let st := addSLink p.1 p.2 recipeNodeId ingredientRate
  if currentDepth < depth then
    match findRecipeForItem d ing.name with
    | some r' => buildSankeyData d depth fuel r' ingredientRate (currentDepth + 1) visited' st
    | none => setNodeRaw st p.2
  else st

/-! ## `generateRecipeTable`

The three JS objects `table.recipes`, `table.items`, `table.rawMaterials`
are string-keyed maps in insertion order; we model each as an association
list where updates keep the entry's position and new keys are appended. -/

/-- An entry of `table.recipes`. -/
structure TRecipe where
  name : String
  time : ℚ
  machines : ℚ
  outputRate : ℚ
  produces : String
  ingredients : List FullReq
deriving DecidableEq

/-- An entry of `table.items`. -/
structure TItem where
  name : String
  producedBy : Option String
  producedRate : ℚ
  consumedBy : List (String × ℚ)
  consumedRate : ℚ
deriving DecidableEq

/-- The `table` accumulator of `generateRecipeTable`. -/
structure TState where
  recipes : List (String × TRecipe)
  items : List (String × TItem)
  rawMaterials : List (String × ℚ)
deriving DecidableEq

/-- Insert at the back or modify in place, keyed association-list update. -/
def upsertWith {α : Type} (m : List (String × α)) (k : String)
    (mk : α) (f : α → α) : List (String × α) :=
  if m.any fun p => p.1 = k then
    m.map fun p => if p.1 = k then (p.1, f p.2) else p
  else m ++ [(k, mk)]

/-- Lookup in a keyed association list (JS `obj[key]`). -/
def alGet? {α : Type} : List (String × α) → String → Option α
  | [], _ => none
  | p :: m, k => if p.1 = k then some p.2 else alGet? m k

/-- The update of `table.recipes[recipeKey]` at the head of `processRecipe`:
create `{name, time, machines: ceil2, outputRate: rate, produces, ingredients: []}`
or accumulate `machines` and `outputRate`. -/
def tableAddRecipe (st : TState) (recipeKey : String) (craftingTime machinesNeeded rate : ℚ)
    (outputItem : String) : TState :=
  let fresh : TRecipe :=
    { name := recipeKey, time := craftingTime, machines := ceil2 machinesNeeded
      outputRate := rate, produces := outputItem, ingredients := [] }
  let bump : TRecipe → TRecipe := fun e =>
    { e with machines := ceil2 (e.machines + machinesNeeded)
             outputRate := e.outputRate + rate }
  { st with recipes := upsertWith st.recipes recipeKey fresh bump }

/-- The update of `table.items[outputItem]` in `processRecipe`. -/
def tableAddOutputItem (st : TState) (outputItem recipeKey : String) (rate : ℚ) : TState :=
  let fresh : TItem :=
    { name := outputItem, producedBy := some recipeKey, producedRate := rate
      consumedBy := [], consumedRate := 0 }
  let bump : TItem → TItem := fun e => { e with producedRate := e.producedRate + rate }
  { st with items := upsertWith st.items outputItem fresh bump }

/-- The non-recursive part of the `forEach` over ingredients in
`processRecipe`: push the ingredient onto `table.recipes[recipeKey].ingredients`
and update `table.items[ingredientName]`'s consumption. -/
def tableAddIngredient (st : TState) (recipeKey ingredientName : String)
    (ingredientRate : ℚ) : TState :=
  let freshR : TRecipe :=
    { name := recipeKey, time := 0, machines := 0, outputRate := 0
      produces := "", ingredients := [⟨ingredientName, round2 ingredientRate⟩] }
  let pushIng : TRecipe → TRecipe := fun e =>
    { e with ingredients := e.ingredients ++ [⟨ingredientName, round2 ingredientRate⟩] }
  let st := { st with recipes := upsertWith st.recipes recipeKey freshR pushIng }
  let freshI : TItem :=
    { name := ingredientName, producedBy := none, producedRate := 0
      consumedBy := [(recipeKey, round2 ingredientRate)], consumedRate := ingredientRate }
  let bumpI : TItem → TItem := fun e =>
    { e with
      consumedBy := upsertWith e.consumedBy recipeKey (round2 ingredientRate)
        (fun v => v + round2 ingredientRate)
      consumedRate := e.consumedRate + ingredientRate }
  { st with items := upsertWith st.items ingredientName freshI bumpI }

/-- `table.rawMaterials[name]` update for an ingredient with no producer. -/
def tableAddRaw (st : TState) (ingredientName : String) (ingredientRate : ℚ) : TState :=
  let upd := upsertWith st.rawMaterials ingredientName (round2 ingredientRate)
    (fun v => v + round2 ingredientRate)
  { st with rawMaterials := upd }

/-- `processRecipe(recipe, rate, seen)` inside `generateRecipeTable`.
`seen` is copied (`new Set(seen)`) at every recursive branch; `fuel` makes
the recursion structural and the wrapper passes `d.length + 1`. -/
def processRecipe (d : Dataset) : Nat → Recipe → ℚ → List String → TState → TState
  | 0, _, _, _, st => st
  | fuel + 1, recipe, rate, seen, st =>
    if seen.contains recipe.key then st
    else
      let recipeKey := recipe.key
      let outputItem := (primaryResult recipe).name
      let outputAmount := outputAmountOf recipe
      let craftingTime := craftingTimeOf recipe
      let seen' := recipeKey :: seen
      let machinesNeeded := rate * craftingTime / (outputAmount * craftingSpeed)
      let st := tableAddRecipe st recipeKey craftingTime machinesNeeded rate outputItem
      let st := tableAddOutputItem st outputItem recipeKey rate
      recipe.ingredients.foldl
        (fun st ing =>
          let ingredientRate := ing.amount * rate / outputAmount
          let st := tableAddIngredient st recipeKey ing.name ingredientRate
          match findRecipeForItem d ing.name with
          | some r' => processRecipe d fuel r' ingredientRate seen' st
          | none => tableAddRaw st ing.name ingredientRate)
        st

/-- The body of the ingredients `forEach` of `processRecipe`, as a
standalone step function. -/
def tableStep (d : Dataset) (fuel : Nat) (recipeKey : String) (outputAmount rate : ℚ)
    (seen' : List String) (st : TState) (ing : RItem) : TState :=
  let ingredientRate := ing.amount * rate / outputAmount
  let st := tableAddIngredient st recipeKey ing.name ingredientRate
  match findRecipeForItem d ing.name with
  | some r' => processRecipe d fuel r' ingredientRate seen' st
  | none => tableAddRaw st ing.name ingredientRate

/-- The final shape returned by `generateRecipeTable`: `recipes` and `items`
as value arrays, `rawMaterials` as `{name, rate}` entries sorted by
descending rate. -/
structure TableOut where
  recipes : List TRecipe
  items : List TItem
  rawMaterials : List FullReq
deriving DecidableEq

/-- `generateRecipeTable(recipe, targetRate)`. -/
def generateRecipeTable (d : Dataset) (recipe : Recipe) (targetRate : ℚ) : TableOut :=
  let st := processRecipe d (d.length + 1) recipe targetRate [] ⟨[], [], []⟩
  { recipes := st.recipes.map fun p => p.2
    items := st.items.map fun p => p.2
    rawMaterials :=
      sortByRateDesc (st.rawMaterials.map fun p => { name := p.1, rate := p.2 }) }

/-! ## `factorio-knowledge-graph.js`

Node ids are the strings `"recipe:" ++ key` / `"item:" ++ name`; the
optional display metadata (`factorioData.items`) is a keyed map. -/

/-- Group/subgroup metadata of `factorioData.items[name]`. -/
structure ItemMeta where
  group : Option String
  subgroup : Option String
deriving DecidableEq

/-- The `factorioData.items` map. -/
abbrev ItemsMeta := List (String × ItemMeta)

/-- A graph node as pushed by the `addNode` helpers: `{id, type, name}` plus
the optional property bags used at the call sites. -/
structure GNode where
  id : String
  ty : String
  name : String
  category : Option String := none
  time : Option ℚ := none
  group : Option String := none
  subgroup : Option String := none
deriving DecidableEq

/-- An internal link over node indices, as pushed by `addLink`. -/
structure GLink where
  source : Nat
  target : Nat
  relationship : String
  amount : ℚ
deriving DecidableEq

/-- A link of the returned graph, with `source`/`target` resolved to
node id strings. -/
structure OutLink where
  source : String
  target : String
  relationship : String
  amount : ℚ
deriving DecidableEq

/-- The returned `{nodes, links}` graph. -/
structure GraphOut where
  nodes : List GNode
  links : List OutLink
deriving DecidableEq

/-- The `nodes`/`links` accumulators shared by both graph generators
(the JS `nodeMap` maps a node id to its index in `nodes`). -/
structure GState where
  nodes : List GNode
  links : List GLink
deriving DecidableEq

/-- `nodeMap.get(id)`: index of the node with this id, if present. -/
def gIdx? : List GNode → String → Option Nat
  | [], _ => none
  | n :: ns, id => if n.id = id then some 0 else (gIdx? ns id).map (· + 1)

/-- `addNode(id, type, name, properties)`: push unless the id exists. -/
def addGNode (st : GState) (n : GNode) : GState :=
  match gIdx? st.nodes n.id with
  | some _ => st
  | none => { st with nodes := st.nodes ++ [n] }

/-- `addLink` of `generateCompleteGraph`: push the link if both endpoints
resolve, with no deduplication. -/
def addGLinkC (st : GState) (source target relationship : String) (amount : ℚ) : GState :=
  match gIdx? st.nodes source, gIdx? st.nodes target with
  | some si, some ti => { st with links := st.links ++ [⟨si, ti, relationship, amount⟩] }
  | _, _ => st

/-- `addLink` of `generateItemSubgraph`: additionally skip the push when a
link with the same `(source, target, relationship)` index triple exists. -/
def addGLinkS (st : GState) (source target relationship : String) (amount : ℚ) : GState :=
  match gIdx? st.nodes source, gIdx? st.nodes target with
  | some si, some ti =>
    if st.links.any fun l => l.source = si ∧ l.target = ti ∧ l.relationship = relationship
    then st
    else { st with links := st.links ++ [⟨si, ti, relationship, amount⟩] }
  | _, _ => st

/-- The body of `recipe.results.forEach` in `generateCompleteGraph`: an
item node and a `produces` link. -/
def completeResultStep (recipeId : String) (st : GState) (res : RItem) : GState :=
  let itemId := "item:" ++ res.name
  let st := addGNode st { id := itemId, ty := "item", name := res.name }
  addGLinkC st recipeId itemId "produces" (jsOr1 res.amount)

/-- The body of `recipe.ingredients.forEach` in `generateCompleteGraph`: an
item node and a `consumedBy` link. -/
def completeIngredientStep (recipeId : String) (st : GState) (ing : RItem) : GState :=
  let itemId := "item:" ++ ing.name
  let st := addGNode st { id := itemId, ty := "item", name := ing.name }
  addGLinkC st itemId recipeId "consumedBy" ing.amount

/-- The per-recipe body of `generateCompleteGraph`'s main loop: a recipe
node, a produces link per result entry, a consumedBy link per ingredient
entry. -/
def completeGraphStep (st : GState) (r : Recipe) : GState :=
  let recipeId := "recipe:" ++ r.key
  let st := addGNode st
    { id := recipeId, ty := "recipe", name := r.key
      category := r.category, time := some (craftingTimeOf r) }
  let st := r.results.foldl (completeResultStep recipeId) st
  r.ingredients.foldl (completeIngredientStep recipeId) st

/-- Resolve an internal link to the output's `{source, target, relationship,
amount}` shape through the `nodes` array. -/
def resolveLink (nodes : List GNode) (postAmount : ℚ → ℚ) (l : GLink) : OutLink :=
  { source := ((nodes.get? l.source).map fun n => n.id).getD ""
    target := ((nodes.get? l.target).map fun n => n.id).getD ""
    relationship := l.relationship
    amount := postAmount l.amount }

/-- `generateCompleteGraph()`. -/
def generateCompleteGraph (d : Dataset) : GraphOut :=
  let st := d.foldl completeGraphStep ⟨[], []⟩
  { nodes := st.nodes
    links := st.links.map (resolveLink st.nodes id) }

/-- The body of the `for (const recipeKey in factorioData.recipes)` loop of
`exploreItem`, with the recursive call abstracted as `recurse`
(`exploreItem` instantiates it with itself at the next fuel level). -/
def exploreItemStep (meta : ItemsMeta) (maxDepth : Nat)
    (recurse : String → Nat → List String → GState → GState)
    (itemName : String) (currentDepth : Nat) (visited' : List String)
    (st : GState) (recipe : Recipe) : GState :=
  let itemId := "item:" ++ itemName
  let recipeId := "recipe:" ++ recipe.key
  let st :=
    if recipe.results.any fun res => res.name = itemName then
      let st := addGNode st
        { id := recipeId, ty := "recipe", name := recipe.key
          category := recipe.category, time := some (craftingTimeOf recipe) }
      let outputAmount :=
        jsOr1 (((recipe.results.find? fun res => res.name = itemName).map
          fun res => res.amount).getD 0)
      let st := addGLinkS st recipeId itemId "produces" outputAmount
      recipe.ingredients.foldl
        (fun st ing =>
          let ingredientId := "item:" ++ ing.name
          let gm := (alGet? meta ing.name).getD ⟨none, none⟩
          let st := addGNode st
            { id := ingredientId, ty := "item", name := ing.name
              group := gm.group, subgroup := gm.subgroup }
          let st := addGLinkS st ingredientId recipeId "consumedBy" ing.amount
          if currentDepth < maxDepth then
            recurse ing.name (currentDepth + 1) visited' st
          else st)
        st
    else st
  if recipe.ingredients.any fun ing => ing.name = itemName then
    let st := addGNode st
      { id := recipeId, ty := "recipe", name := recipe.key
        category := recipe.category, time := some (craftingTimeOf recipe) }
    let inputAmount :=
      jsOr1 (((recipe.ingredients.find? fun ing => ing.name = itemName).map
        fun ing => ing.amount).getD 0)
    let st := addGLinkS st itemId recipeId "consumedBy" inputAmount
    recipe.results.foldl
      (fun st res =>
        let productId := "item:" ++ res.name
        let pm := (alGet? meta res.name).getD ⟨none, none⟩
        let st := addGNode st
          { id := productId, ty := "item", name := res.name
            group := pm.group, subgroup := pm.subgroup }
        let st := addGLinkS st recipeId productId "produces" (jsOr1 res.amount)
        if currentDepth < maxDepth then
          recurse res.name (currentDepth + 1) visited' st
        else st)
      st
  else st

/-- `exploreItem(itemName, currentDepth, visited)` inside
`generateItemSubgraph(itemName, maxDepth)`.  The visited set of item names
is copied (`new Set(visited)`) at each recursive branch.  `fuel` makes the
recursion structural; the wrapper passes `maxDepth + 2`, enough for the
`currentDepth` guard. -/
def exploreItem (d : Dataset) (meta : ItemsMeta) (maxDepth : Nat) :
    Nat → String → Nat → List String → GState → GState
  | 0, _, _, _, st => st
  | fuel + 1, itemName, currentDepth, visited, st =>
    if currentDepth > maxDepth then st
    else if visited.contains itemName then st
    else
      let visited' := itemName :: visited
      let im := (alGet? meta itemName).getD ⟨none, none⟩
      let st := addGNode st
        { id := "item:" ++ itemName, ty := "item", name := itemName
          group := im.group, subgroup := im.subgroup }
      d.foldl
        (exploreItemStep meta maxDepth (exploreItem d meta maxDepth fuel)
          itemName currentDepth visited')
        st

/-- `generateItemSubgraph(itemName, maxDepth = 2)`; the output maps each
link's endpoints to node ids and applies `link.amount || 1`. -/
def generateItemSubgraph (d : Dataset) (meta : ItemsMeta) (itemName : String)
    (maxDepth : Nat := 2) : GraphOut :=
  let st := exploreItem d meta maxDepth (maxDepth + 2) itemName 0 [] ⟨[], []⟩
  { nodes := st.nodes
    links := st.links.map (resolveLink st.nodes jsOr1) }

/-- The merge state of the `/multi-item-graph` endpoint: `allNodes` is the
set of node ids seen, `allLinks` the set of `source|target|relationship`
strings seen. -/
structure MState where
  nodes : List GNode
  links : List OutLink
  allNodes : List String
  allLinks : List String
deriving DecidableEq

/-- The `linkId` string `` `${link.source}|${link.target}|${link.relationship}` ``. -/
def linkId (l : OutLink) : String :=
  l.source ++ "|" ++ l.target ++ "|" ++ l.relationship

/-- The node-merge body of the `/multi-item-graph` endpoint: add the node
unless its id was seen. -/
def mergeNodeStep (st : MState) (node : GNode) : MState :=
  if st.allNodes.contains node.id then st
  else { st with allNodes := st.allNodes ++ [node.id], nodes := st.nodes ++ [node] }

/-- The link-merge body of the `/multi-item-graph` endpoint: add the link
unless its `linkId` string was seen. -/
def mergeLinkStep (st : MState) (link : OutLink) : MState :=
  if st.allLinks.contains (linkId link) then st
  else { st with allLinks := st.allLinks ++ [linkId link], links := st.links ++ [link] }

/-- Merge one per-seed subgraph into the combined graph: nodes deduplicated
by id, links by `linkId`. -/
def mergeSubgraph (st : MState) (g : GraphOut) : MState :=
  g.links.foldl mergeLinkStep (g.nodes.foldl mergeNodeStep st)

/-- The per-seed body of the `items.forEach` of `/multi-item-graph`. -/
def mergeSeedStep (d : Dataset) (meta : ItemsMeta) (depth : Nat)
    (st : MState) (itemName : String) : MState :=
  mergeSubgraph st (generateItemSubgraph d meta itemName depth)

/-- The `/multi-item-graph` endpoint core (`buildMultiItemGraph`): run
`generateItemSubgraph` per seed and union the results. -/
def multiItemGraph (d : Dataset) (meta : ItemsMeta) (items : List String)
    (depth : Nat := 1) : GraphOut :=
  let st := items.foldl (mergeSeedStep d meta depth) ⟨[], [], [], []⟩
  { nodes := st.nodes, links := st.links }

/-- None of a link's three components contains the `|` character that
`linkId` uses as its separator. -/
def pipeFreeLink (l : OutLink) : Prop :=
  '|' ∉ l.source.data ∧ '|' ∉ l.target.data ∧ '|' ∉ l.relationship.data

/-- Two links carry the same `(source, target, relationship)` triple. -/
def sameTriple (l l' : OutLink) : Prop :=
  l.source = l'.source ∧ l.target = l'.target ∧ l.relationship = l'.relationship

instance (l : OutLink) : Decidable (pipeFreeLink l) :=
  inferInstanceAs (Decidable ('|' ∉ l.source.data ∧ '|' ∉ l.target.data ∧
    '|' ∉ l.relationship.data))

instance (l l' : OutLink) : Decidable (sameTriple l l') :=
  inferInstanceAs (Decidable (l.source = l'.source ∧ l.target = l'.target ∧
    l.relationship = l'.relationship))

/-- The merge state's seen-id list matches its node list. -/
def mergeInvN (st : MState) : Prop :=
  ∀ id, id ∈ st.allNodes ↔ ∃ n ∈ st.nodes, n.id = id

/-- The merge state's seen-linkId list matches its link list. -/
def mergeInvL (st : MState) : Prop :=
  ∀ lid, lid ∈ st.allLinks ↔ ∃ l ∈ st.links, linkId l = lid

/-- Every merged link comes from one of the given seeds' subgraphs. -/
def linksFromSeeds (d : Dataset) (meta : ItemsMeta) (depth : Nat)
    (seeds : List String) (st : MState) : Prop :=
  ∀ l ∈ st.links, ∃ t ∈ seeds, l ∈ (generateItemSubgraph d meta t depth).links

/-! ## Concrete datasets used to exercise the definitions -/

/-- A recipe with ingredients `a:1, b:2`, crafting time 1, primary output
`t` with amount 1 (the worked example of the specification). -/
def exampleRecipe : Recipe := ⟨"r", none, some 1, [⟨"a", 1⟩, ⟨"b", 2⟩], [⟨"t", 1⟩]⟩

/-- Dataset holding only `exampleRecipe`; `a` and `b` have no producers. -/
def exampleData : Dataset := [exampleRecipe]

/-- Recipe producing `x` from `y` (half of a two-recipe cycle). -/
def cycleRecipeX : Recipe := ⟨"rx", none, none, [⟨"y", 1⟩], [⟨"x", 1⟩]⟩

/-- Recipe producing `y` from `x` (the other half of the cycle). -/
def cycleRecipeY : Recipe := ⟨"ry", none, none, [⟨"x", 1⟩], [⟨"y", 1⟩]⟩

/-- A two-recipe dataset forming a cycle: `x`'s recipe consumes `y` and
`y`'s recipe consumes `x`. -/
def cycleData : Dataset := [cycleRecipeX, cycleRecipeY]

/-- `t` is made from `u` and `v`. -/
def roundRecipeT : Recipe := ⟨"rt", none, none, [⟨"u", 1⟩, ⟨"v", 1⟩], [⟨"t", 1⟩]⟩

/-- 250 `u` per craft from one `w`, so `w` demand per `u` is `0.004`. -/
def roundRecipeU : Recipe := ⟨"ru", none, none, [⟨"w", 1⟩], [⟨"u", 250⟩]⟩

/-- 250 `v` per craft from one `w`. -/
def roundRecipeV : Recipe := ⟨"rv", none, none, [⟨"w", 1⟩], [⟨"v", 250⟩]⟩

/-- Dataset where `w`'s aggregate demand accumulates as `0.004 + 0.004`,
distinguishing per-step rounding from rounding once at the end. -/
def roundData : Dataset := [roundRecipeT, roundRecipeU, roundRecipeV]

/-- Head of a chain `t0 ← t1 ← t2 ← t3 ← x` of length four. -/
def chainRecipe0 : Recipe := ⟨"s0", none, none, [⟨"t1", 1⟩], [⟨"t0", 1⟩]⟩

/-- Second link of the chain. -/
def chainRecipe1 : Recipe := ⟨"s1", none, none, [⟨"t2", 1⟩], [⟨"t1", 1⟩]⟩

/-- Third link of the chain. -/
def chainRecipe2 : Recipe := ⟨"s2", none, none, [⟨"t3", 1⟩], [⟨"t2", 1⟩]⟩

/-- Last link of the chain; its ingredient `x` has no producing recipe. -/
def chainRecipe3 : Recipe := ⟨"s3", none, none, [⟨"x", 1⟩], [⟨"t3", 1⟩]⟩

/-- A chain dataset where the producerless `x` is first reached exactly at
the flow view's default depth limit 3. -/
def chainData : Dataset := [chainRecipe0, chainRecipe1, chainRecipe2, chainRecipe3]

/-- Variant chain head that also consumes `x` directly, so `x` is reached
both at the depth limit and strictly below it. -/
def chainRecipe0X : Recipe := ⟨"s0", none, none, [⟨"t1", 1⟩, ⟨"x", 1⟩], [⟨"t0", 1⟩]⟩

/-- The chain dataset with the variant head. -/
def chainDataX : Dataset := [chainRecipe0X, chainRecipe1, chainRecipe2, chainRecipe3]

/-- Recipe whose key `k|item:x` contains the `|` separator used by the
multi-item-graph's link identifier. -/
def pipeRecipe1 : Recipe := ⟨"k|item:x", none, none, [], [⟨"y", 1⟩]⟩

/-- Recipe with plain key `k` producing the item named `x|item:y`. -/
def pipeRecipe2 : Recipe := ⟨"k", none, none, [], [⟨"x|item:y", 1⟩]⟩

/-- Dataset where the two recipes' produces links have distinct
`(source, target, relationship)` triples but the same `linkId` string. -/
def pipeData : Dataset := [pipeRecipe1, pipeRecipe2]

/-- An empty tree node, used as the `headD` default when walking children. -/
def nilNode : TreeNode := .mk "" none 0 none none none []

/-! ## Counting helpers for the complete graph -/

/-- All item names appearing as a result or an ingredient of some recipe,
with repetitions, in dataset order. -/
def referencedItems (d : Dataset) : List String :=
  d.flatMap fun r => (r.results.map fun e => e.name) ++ (r.ingredients.map fun e => e.name)

/-- The sequence of node ids `generateCompleteGraph` passes to `addNode`,
in emission order. -/
def idStream (d : Dataset) : List String :=
  d.flatMap fun r =>
    ("recipe:" ++ r.key) ::
      (((r.results.map fun e => e.name) ++ (r.ingredients.map fun e => e.name)).map
        fun n => "item:" ++ n)

/-- Append an id unless already present — the effect of `addNode` on the
list of node ids. -/
def insFresh (acc : List String) (id : String) : List String :=
  if id ∈ acc then acc else acc ++ [id]

/-! ## Unfolding equations for the fuelled recursions -/

theorem calcFullReq_succ (d : Dataset) (fuel : Nat) (recipe : Recipe)
    (targetRate : ℚ) (reqs : Reqs) (seen : List String) :
    calcFullReq d (fuel + 1) recipe targetRate reqs seen =
      if seen.contains recipe.key then reqs
      else recipe.ingredients.foldl
        (demandStep d fuel (outputAmountOf recipe) targetRate (recipe.key :: seen))
        reqs := by
  rfl

theorem processRecipe_succ (d : Dataset) (fuel : Nat) (recipe : Recipe) (rate : ℚ)
    (seen : List String) (st : TState) :
    processRecipe d (fuel + 1) recipe rate seen st =
      if seen.contains recipe.key then st
      else
        recipe.ingredients.foldl
          (tableStep d fuel recipe.key (outputAmountOf recipe) rate (recipe.key :: seen))
          (tableAddOutputItem
            (tableAddRecipe st recipe.key (craftingTimeOf recipe)
              (rate * craftingTimeOf recipe / (outputAmountOf recipe * craftingSpeed)) rate
              (primaryResult recipe).name)
            (primaryResult recipe).name recipe.key rate) := by
  rfl

theorem buildSankeyData_succ (d : Dataset) (depth fuel : Nat) (recipe : Recipe)
    (rate : ℚ) (currentDepth : Nat) (visited : List String) (st : SState) :
    buildSankeyData d depth (fuel + 1) recipe rate currentDepth visited st =
      if currentDepth > depth then st
      else if visited.contains recipe.key then st
      else
        recipe.ingredients.foldl
          (sankeyStep d depth fuel (addSNode st ("Recipe: " ++ recipe.key) "recipe").2
            (outputAmountOf recipe) rate currentDepth (recipe.key :: visited))
          (addSLink
            (addSNode (addSNode st ("Recipe: " ++ recipe.key) "recipe").1
              (primaryResult recipe).name "item").1
            (addSNode st ("Recipe: " ++ recipe.key) "recipe").2
            (addSNode (addSNode st ("Recipe: " ++ recipe.key) "recipe").1
              (primaryResult recipe).name "item").2
            rate) := by
  rfl

/-! ## Generic helper lemmas -/

theorem foldl_fixed {α β : Type} (f : β → α → β) (l : List α)
    (h : ∀ x ∈ l, ∀ b, f b x = b) : ∀ b : β, l.foldl f b = b := by
  induction l with
  | nil => intro b; rfl
  | cons a l ih =>
    intro b
    rw [List.foldl_cons, h a (List.mem_cons_self a l) b]
    exact ih (fun x hx b => h x (List.mem_cons_of_mem a hx) b) b

theorem foldl_invariant {α β : Type} (P : β → Prop) (f : β → α → β) (l : List α)
    (h : ∀ b, ∀ x ∈ l, P b → P (f b x)) : ∀ b : β, P b → P (l.foldl f b) := by
  induction l with
  | nil => intro b hb; exact hb
  | cons a l ih =>
    intro b hb
    rw [List.foldl_cons]
    exact ih (fun b x hx => h b x (List.mem_cons_of_mem a hx))
      (f b a) (h b a (List.mem_cons_self a l) hb)

theorem foldl_max_le (l : List Nat) (bound : Nat)
    (h : ∀ x ∈ l, x ≤ bound) : ∀ init ≤ bound, l.foldl max init ≤ bound := by
  induction l with
  | nil => intro init hi; exact hi
  | cons a l ih =>
    intro init hi
    rw [List.foldl_cons]
    exact ih (fun x hx => h x (List.mem_cons_of_mem a hx)) _
      (max_le hi (h a (List.mem_cons_self a l)))

/-! ## Association-list lemmas for the keyed-map model -/

theorem alGet?_map_upd {α : Type} (m : List (String × α)) (k k' : String) (f : α → α) :
    alGet? (m.map fun p => if p.1 = k then (p.1, f p.2) else p) k' =
      if k' = k then (alGet? m k').map f else alGet? m k' := by
  induction m with
  | nil => by_cases hk : k' = k <;> simp [alGet?, hk]
  | cons p m ih =>
    rw [List.map_cons]
    by_cases hk : p.1 = k <;> by_cases hp : p.1 = k'
    · have he : k' = k := by rw [← hp, hk]
      simp [alGet?, hk, hp, he]
    · have he : ¬ k' = k := fun hc => hp (by rw [hk, ← hc])
      have he' : ¬ k = k' := fun hc => he hc.symm
      simp [alGet?, hk, hp, he, he', ih]
    · have he : ¬ k' = k := fun hc => hk (hp.trans hc)
      simp [alGet?, hk, hp, he, ih]
    · simp [alGet?, hk, hp, ih]

theorem alGet?_append_single {α : Type} (m : List (String × α)) (k k' : String) (v : α) :
    alGet? (m ++ [(k, v)]) k' =
      ((alGet? m k').orElse fun _ => if k = k' then some v else none) := by
  induction m with
  | nil => by_cases hk : k = k' <;> simp [alGet?, hk, Option.orElse]
  | cons p m ih =>
    rw [List.cons_append]
    by_cases hp : p.1 = k' <;> simp [alGet?, hp, ih, Option.orElse]

theorem any_key_iff_alGet? {α : Type} (m : List (String × α)) (k : String) :
    (m.any fun p => p.1 = k) = true ↔ (alGet? m k).isSome := by
  induction m with
  | nil => simp [alGet?]
  | cons p m ih => by_cases hp : p.1 = k <;> simp [alGet?, hp, ih]

theorem alGet?_upsertWith_self {α : Type} (m : List (String × α)) (k : String)
    (mk : α) (f : α → α) :
    alGet? (upsertWith m k mk f) k = some ((alGet? m k).elim mk f) := by
  rw [upsertWith]
  by_cases hany : (m.any fun p => p.1 = k) = true
  · rw [if_pos hany, alGet?_map_upd, if_pos rfl]
    rcases Option.isSome_iff_exists.mp ((any_key_iff_alGet? m k).mp hany) with ⟨v, hv⟩
    rw [hv]; rfl
  · rw [if_neg hany, alGet?_append_single]
    have hnone : alGet? m k = none := by
      cases h : alGet? m k with
      | none => rfl
      | some v =>
        exact absurd ((any_key_iff_alGet? m k).mpr (by rw [h]; rfl)) hany
    rw [hnone]
    simp [Option.orElse]

theorem alGet?_upsertWith_ne {α : Type} (m : List (String × α)) (k k' : String)
    (mk : α) (f : α → α) (h : k' ≠ k) :
    alGet? (upsertWith m k mk f) k' = alGet? m k' := by
  rw [upsertWith]
  by_cases hany : (m.any fun p => p.1 = k) = true
  · rw [if_pos hany, alGet?_map_upd, if_neg h]
  · rw [if_neg hany, alGet?_append_single]
    cases hg : alGet? m k' with
    | none =>
      simp only [Option.orElse]
      rw [if_neg (fun hc => h hc.symm)]
    | some v => rfl

/-! ## The output sort: a stable descending insertion sort -/

theorem insertByRateDesc_perm (x : FullReq) :
    ∀ l : List FullReq, List.Perm (insertByRateDesc x l) (x :: l) := by
  intro l
  induction l with
  | nil => rfl
  | cons y ys ih =>
    rw [insertByRateDesc]
    by_cases hxy : x.rate ≤ y.rate
    · rw [if_pos hxy]
      exact (ih.cons y).trans (List.Perm.swap x y ys)
    · rw [if_neg hxy]

theorem sortByRateDesc_perm_aux :
    ∀ (l acc : List FullReq),
      List.Perm (l.foldl (fun acc x => insertByRateDesc x acc) acc) (l ++ acc) := by
  intro l
  induction l with
  | nil => intro acc; simp
  | cons a l ih =>
    intro acc
    rw [List.foldl_cons, List.cons_append]
    exact ((ih (insertByRateDesc a acc)).trans
      ((insertByRateDesc_perm a acc).append_left l)).trans List.perm_middle

theorem sortByRateDesc_perm (l : List FullReq) : List.Perm (sortByRateDesc l) l := by
  have h := sortByRateDesc_perm_aux l []
  rw [List.append_nil] at h
  exact h

theorem sorted_insertByRateDesc (x : FullReq) :
    ∀ l : List FullReq, l.Sorted (fun a b => b.rate ≤ a.rate) →
      (insertByRateDesc x l).Sorted (fun a b => b.rate ≤ a.rate) := by
  intro l
  induction l with
  | nil => intro _; simp [insertByRateDesc]
  | cons y ys ih =>
    intro h
    rw [List.sorted_cons] at h
    rw [insertByRateDesc]
    by_cases hxy : x.rate ≤ y.rate
    · rw [if_pos hxy, List.sorted_cons]
      refine ⟨?_, ih h.2⟩
      intro z hz
      rcases List.mem_cons.mp ((insertByRateDesc_perm x ys).subset hz) with rfl | hzys
      · exact hxy
      · exact h.1 z hzys
    · rw [if_neg hxy, List.sorted_cons]
      push_neg at hxy
      refine ⟨?_, List.sorted_cons.mpr h⟩
      intro z hz
      rcases List.mem_cons.mp hz with rfl | hzys
      · exact le_of_lt hxy
      · exact le_trans (h.1 z hzys) (le_of_lt hxy)

theorem sorted_sortByRateDesc (l : List FullReq) :
    (sortByRateDesc l).Sorted (fun a b => b.rate ≤ a.rate) := by
  rw [sortByRateDesc]
  have haux : ∀ (l' acc : List FullReq),
      acc.Sorted (fun a b => b.rate ≤ a.rate) →
      (l'.foldl (fun acc x => insertByRateDesc x acc) acc).Sorted
        (fun a b => b.rate ≤ a.rate) := by
    intro l'
    induction l' with
    | nil => intro acc h; exact h
    | cons a l' ih =>
      intro acc h
      rw [List.foldl_cons]
      exact ih _ (sorted_insertByRateDesc a acc h)
  exact haux l [] (by simp)

/-! ## Tree-height lemmas -/

theorem TreeNode.height_mk (item : String) (recipe : Option String) (rate : ℚ)
    (machines time : Option ℚ) (ty : Option String) (children : List TreeNode) :
    TreeNode.height (.mk item recipe rate machines time ty children) =
      1 + (children.attach.map fun c => TreeNode.height c.1).foldl max 0 := by
  rw [TreeNode.height]

theorem TreeNode.height_congr (t : TreeNode) (item : String) (recipe : Option String)
    (rate : ℚ) (machines time : Option ℚ) (ty : Option String) :
    TreeNode.height (.mk item recipe rate machines time ty t.children) = t.height := by
  cases t with
  | mk i r rt m tm tty c => rw [TreeNode.height_mk, TreeNode.children, TreeNode.height_mk]

theorem generateRecipeTree_zero (d : Dataset) (recipe : Recipe) (rate : ℚ) :
    generateRecipeTree d 0 recipe rate =
      .mk (primaryResult recipe).name (some recipe.key) rate
        (some (ceil2 (rate * craftingTimeOf recipe /
          (outputAmountOf recipe * craftingSpeed))))
        (some (craftingTimeOf recipe)) none [] := by
  rfl

theorem generateRecipeTree_succ (d : Dataset) (depth : Nat) (recipe : Recipe) (rate : ℚ) :
    generateRecipeTree d (depth + 1) recipe rate =
      .mk (primaryResult recipe).name (some recipe.key) rate
        (some (ceil2 (rate * craftingTimeOf recipe /
          (outputAmountOf recipe * craftingSpeed))))
        (some (craftingTimeOf recipe)) none
        (recipe.ingredients.map fun ing =>
          let ingredientRate := ing.amount * rate / outputAmountOf recipe
          match findRecipeForItem d ing.name with
          | some r' =>
            let sub := generateRecipeTree d depth r' ingredientRate
            .mk ing.name sub.recipe (round2 ingredientRate) sub.machines sub.time
              none sub.children
          | none =>
            .mk ing.name none (round2 ingredientRate) none none (some "raw") []) := by
  rfl

theorem generateRecipeTree_height_le (d : Dataset) :
    ∀ (depth : Nat) (recipe : Recipe) (rate : ℚ),
      (generateRecipeTree d depth recipe rate).height ≤ depth + 1 := by
  intro depth
  induction depth with
  | zero =>
    intro recipe rate
    rw [generateRecipeTree_zero, TreeNode.height_mk]
    simp
  | succ depth ih =>
    intro recipe rate
    rw [generateRecipeTree_succ, TreeNode.height_mk]
    have hch : (generateRecipeTree d (depth + 1) recipe rate).children =
        recipe.ingredients.map fun ing =>
          let ingredientRate := ing.amount * rate / outputAmountOf recipe
          match findRecipeForItem d ing.name with
          | some r' =>
            let sub := generateRecipeTree d depth r' ingredientRate
            TreeNode.mk ing.name sub.recipe (round2 ingredientRate) sub.machines sub.time
              none sub.children
          | none =>
            TreeNode.mk ing.name none (round2 ingredientRate) none none (some "raw") [] := by
      rw [generateRecipeTree_succ, TreeNode.children]
    have hb : ∀ x ∈ (((generateRecipeTree d (depth + 1) recipe rate).children).attach.map
        fun c => TreeNode.height c.1), x ≤ depth + 1 := by
      intro x hx
      rcases List.mem_map.mp hx with ⟨c, _, rfl⟩
      obtain ⟨z, hzmem⟩ := c
      have hz : z ∈ (generateRecipeTree d (depth + 1) recipe rate).children := hzmem
      rw [hch] at hz
      rcases List.mem_map.mp hz with ⟨ing, _, heq⟩
      show z.height ≤ depth + 1
      cases hfind : findRecipeForItem d ing.name with
      | some r' =>
        rw [hfind] at heq
        simp only at heq
        rw [← heq, TreeNode.height_congr]
        exact ih r' _
      | none =>
        rw [hfind] at heq
        simp only at heq
        rw [← heq, TreeNode.height_mk]
        simp
    have hbound : ∀ x ∈ ((recipe.ingredients.map fun ing =>
        let ingredientRate := ing.amount * rate / outputAmountOf recipe
        match findRecipeForItem d ing.name with
        | some r' =>
          let sub := generateRecipeTree d depth r' ingredientRate
          TreeNode.mk ing.name sub.recipe (round2 ingredientRate) sub.machines sub.time
            none sub.children
        | none =>
          TreeNode.mk ing.name none (round2 ingredientRate) none none (some "raw")
            []).attach.map fun c => TreeNode.height c.1), x ≤ depth + 1 := by
      intro x hx
      apply hb
      rw [generateRecipeTree_succ, TreeNode.children]
      exact hx
    have hfold := foldl_max_le _ (depth + 1) hbound 0 (Nat.zero_le _)
    omega

/-! ## Flow-view lemmas: every operation only appends to `links` -/

theorem addSNode_links (st : SState) (name ty : String) :
    (addSNode st name ty).1.links = st.links := by
  rw [addSNode]
  cases st.nodes.findIdx? fun n => n.name = name <;> rfl

theorem addSLink_links (st : SState) (source target : Nat) (value : ℚ) :
    (addSLink st source target value).links =
      st.links ++ [⟨source, target, max (1/100) value⟩] := by
  rfl

theorem setNodeRaw_links (st : SState) (id : Nat) :
    (setNodeRaw st id).links = st.links := by
  rfl

theorem sankeyStep_recurse (d : Dataset) (depth fuel recipeNodeId : Nat)
    (outputAmount rate : ℚ) (currentDepth : Nat) (visited' : List String)
    (st : SState) (ing : RItem) (r' : Recipe)
    (hcd : currentDepth < depth) (hfind : findRecipeForItem d ing.name = some r') :
    sankeyStep d depth fuel recipeNodeId outputAmount rate currentDepth visited' st ing =
      buildSankeyData d depth fuel r' (ing.amount * rate / outputAmount)
        (currentDepth + 1) visited'
        (addSLink (addSNode st ing.name "item").1 (addSNode st ing.name "item").2
          recipeNodeId (ing.amount * rate / outputAmount)) := by
  unfold sankeyStep
  rw [if_pos hcd, hfind]

theorem sankeyStep_raw (d : Dataset) (depth fuel recipeNodeId : Nat)
    (outputAmount rate : ℚ) (currentDepth : Nat) (visited' : List String)
    (st : SState) (ing : RItem)
    (hcd : currentDepth < depth) (hfind : findRecipeForItem d ing.name = none) :
    sankeyStep d depth fuel recipeNodeId outputAmount rate currentDepth visited' st ing =
      setNodeRaw
        (addSLink (addSNode st ing.name "item").1 (addSNode st ing.name "item").2
          recipeNodeId (ing.amount * rate / outputAmount))
        (addSNode st ing.name "item").2 := by
  unfold sankeyStep
  rw [if_pos hcd, hfind]

theorem sankeyStep_atLimit (d : Dataset) (depth fuel recipeNodeId : Nat)
    (outputAmount rate : ℚ) (currentDepth : Nat) (visited' : List String)
    (st : SState) (ing : RItem) (hcd : ¬ currentDepth < depth) :
    sankeyStep d depth fuel recipeNodeId outputAmount rate currentDepth visited' st ing =
      addSLink (addSNode st ing.name "item").1 (addSNode st ing.name "item").2
        recipeNodeId (ing.amount * rate / outputAmount) := by
  unfold sankeyStep
  rw [if_neg hcd]

theorem foldl_links_extend {α : Type} (step : SState → α → SState)
    (hstep : ∀ st a, ∃ ext, (step st a).links = st.links ++ ext) :
    ∀ (l : List α) (st : SState), ∃ ext, (l.foldl step st).links = st.links ++ ext := by
  intro l
  induction l with
  | nil => intro st; exact ⟨[], (List.append_nil _).symm⟩
  | cons a l ih =>
    intro st
    rw [List.foldl_cons]
    obtain ⟨e1, he1⟩ := hstep st a
    obtain ⟨e2, he2⟩ := ih (step st a)
    exact ⟨e1 ++ e2, by rw [he2, he1, List.append_assoc]⟩

theorem buildSankeyData_links_extend (d : Dataset) (depth : Nat) :
    ∀ (fuel : Nat) (recipe : Recipe) (rate : ℚ) (currentDepth : Nat)
      (visited : List String) (st : SState),
      ∃ ext, (buildSankeyData d depth fuel recipe rate currentDepth visited st).links =
        st.links ++ ext := by
  intro fuel
  induction fuel with
  | zero =>
    intro recipe rate currentDepth visited st
    exact ⟨[], (List.append_nil _).symm⟩
  | succ fuel ih =>
    intro recipe rate currentDepth visited st
    rw [buildSankeyData_succ]
    by_cases h1 : currentDepth > depth
    · rw [if_pos h1]; exact ⟨[], (List.append_nil _).symm⟩
    rw [if_neg h1]
    by_cases h2 : visited.contains recipe.key
    · rw [if_pos h2]; exact ⟨[], (List.append_nil _).symm⟩
    rw [if_neg h2]
    have hstep : ∀ (st' : SState) (ing : RItem),
        ∃ ext, (sankeyStep d depth fuel (addSNode st ("Recipe: " ++ recipe.key) "recipe").2
          (outputAmountOf recipe) rate currentDepth (recipe.key :: visited) st' ing).links =
          st'.links ++ ext := by
      intro st' ing
      by_cases hcd : currentDepth < depth
      · cases hfind : findRecipeForItem d ing.name with
        | some r' =>
          rw [sankeyStep_recurse d depth fuel _ _ _ _ _ _ _ r' hcd hfind]
          obtain ⟨e, he⟩ := ih r' _ (currentDepth + 1) (recipe.key :: visited) _
          refine ⟨[⟨(addSNode st' ing.name "item").2,
            (addSNode st ("Recipe: " ++ recipe.key) "recipe").2,
            max (1/100) (ing.amount * rate / outputAmountOf recipe)⟩] ++ e, ?_⟩
          rw [he, addSLink_links, addSNode_links, List.append_assoc]
        | none =>
          rw [sankeyStep_raw d depth fuel _ _ _ _ _ _ _ hcd hfind]
          refine ⟨[⟨(addSNode st' ing.name "item").2,
            (addSNode st ("Recipe: " ++ recipe.key) "recipe").2,
            max (1/100) (ing.amount * rate / outputAmountOf recipe)⟩], ?_⟩
          rw [setNodeRaw_links, addSLink_links, addSNode_links]
      · rw [sankeyStep_atLimit d depth fuel _ _ _ _ _ _ _ hcd]
        refine ⟨[⟨(addSNode st' ing.name "item").2,
          (addSNode st ("Recipe: " ++ recipe.key) "recipe").2,
          max (1/100) (ing.amount * rate / outputAmountOf recipe)⟩], ?_⟩
        rw [addSLink_links, addSNode_links]
    obtain ⟨ext, hext⟩ := foldl_links_extend _ hstep recipe.ingredients _
    refine ⟨[⟨(addSNode st ("Recipe: " ++ recipe.key) "recipe").2,
      (addSNode (addSNode st ("Recipe: " ++ recipe.key) "recipe").1
        (primaryResult recipe).name "item").2,
      max (1/100) rate⟩] ++ ext, ?_⟩
    rw [hext, addSLink_links, addSNode_links, addSNode_links, List.append_assoc]

/-! ## Table lemmas: the root recipe's `outputRate` is written once -/

theorem tableStep_recurse (d : Dataset) (fuel : Nat) (recipeKey : String)
    (outputAmount rate : ℚ) (seen' : List String) (st : TState) (ing : RItem)
    (r' : Recipe) (hfind : findRecipeForItem d ing.name = some r') :
    tableStep d fuel recipeKey outputAmount rate seen' st ing =
      processRecipe d fuel r' (ing.amount * rate / outputAmount) seen'
        (tableAddIngredient st recipeKey ing.name (ing.amount * rate / outputAmount)) := by
  unfold tableStep
  rw [hfind]

theorem tableStep_raw (d : Dataset) (fuel : Nat) (recipeKey : String)
    (outputAmount rate : ℚ) (seen' : List String) (st : TState) (ing : RItem)
    (hfind : findRecipeForItem d ing.name = none) :
    tableStep d fuel recipeKey outputAmount rate seen' st ing =
      tableAddRaw (tableAddIngredient st recipeKey ing.name
        (ing.amount * rate / outputAmount)) ing.name (ing.amount * rate / outputAmount) := by
  unfold tableStep
  rw [hfind]

theorem tableAddOutputItem_recipes (st : TState) (outputItem recipeKey : String) (rate : ℚ) :
    (tableAddOutputItem st outputItem recipeKey rate).recipes = st.recipes := by
  rfl

theorem tableAddRaw_recipes (st : TState) (ingredientName : String) (ingredientRate : ℚ) :
    (tableAddRaw st ingredientName ingredientRate).recipes = st.recipes := by
  rfl

theorem tableAddRecipe_alGet?_ne (st : TState) (recipeKey : String)
    (craftingTime machinesNeeded rate : ℚ) (outputItem : String) (k : String)
    (h : k ≠ recipeKey) :
    alGet? (tableAddRecipe st recipeKey craftingTime machinesNeeded rate outputItem).recipes k =
      alGet? st.recipes k := by
  unfold tableAddRecipe
  dsimp only
  exact alGet?_upsertWith_ne _ _ _ _ _ h

theorem tableAddIngredient_alGet?_ne (st : TState) (recipeKey ingredientName : String)
    (ingredientRate : ℚ) (k : String) (h : k ≠ recipeKey) :
    alGet? (tableAddIngredient st recipeKey ingredientName ingredientRate).recipes k =
      alGet? st.recipes k := by
  unfold tableAddIngredient
  dsimp only
  exact alGet?_upsertWith_ne _ _ _ _ _ h

theorem contains_of_mem_ne (seen : List String) (k key : String)
    (hk : seen.contains k = true) (hkey : seen.contains key = false) : key ≠ k := by
  intro hc
  rw [hc] at hkey
  rw [hkey] at hk
  exact Bool.noConfusion hk

theorem processRecipe_recipes_frozen (d : Dataset) (k : String) :
    ∀ (fuel : Nat) (recipe : Recipe) (rate : ℚ) (seen : List String) (st : TState),
      seen.contains k = true →
      alGet? (processRecipe d fuel recipe rate seen st).recipes k = alGet? st.recipes k := by
  intro fuel
  induction fuel with
  | zero => intro recipe rate seen st _; rfl
  | succ fuel ih =>
    intro recipe rate seen st hk
    rw [processRecipe_succ]
    by_cases hseen : seen.contains recipe.key
    · rw [if_pos hseen]
    rw [if_neg hseen]
    have hne : recipe.key ≠ k :=
      contains_of_mem_ne seen k recipe.key hk (Bool.eq_false_iff.mpr hseen)
    have hne' : k ≠ recipe.key := fun hc => hne hc.symm
    have hinit : alGet? (tableAddOutputItem
        (tableAddRecipe st recipe.key (craftingTimeOf recipe)
          (rate * craftingTimeOf recipe / (outputAmountOf recipe * craftingSpeed)) rate
          (primaryResult recipe).name)
        (primaryResult recipe).name recipe.key rate).recipes k = alGet? st.recipes k := by
      rw [tableAddOutputItem_recipes, tableAddRecipe_alGet?_ne _ _ _ _ _ _ _ hne']
    have hfold := foldl_invariant
      (fun st' => alGet? st'.recipes k = alGet? st.recipes k)
      (tableStep d fuel recipe.key (outputAmountOf recipe) rate (recipe.key :: seen))
      recipe.ingredients ?_ _ hinit
    · exact hfold
    · intro st' ing _ hP
      cases hfind : findRecipeForItem d ing.name with
      | some r' =>
        rw [tableStep_recurse d fuel _ _ _ _ _ _ r' hfind]
        rw [ih r' _ (recipe.key :: seen) _
          (by rw [List.contains_cons, hk, Bool.or_true])]
        rw [tableAddIngredient_alGet?_ne _ _ _ _ _ hne', hP]
      | none =>
        rw [tableStep_raw d fuel _ _ _ _ _ _ hfind]
        rw [tableAddRaw_recipes, tableAddIngredient_alGet?_ne _ _ _ _ _ hne', hP]

theorem alGet?_mem {α : Type} :
    ∀ (m : List (String × α)) (k : String) (v : α),
      alGet? m k = some v → ∃ p ∈ m, p.1 = k ∧ p.2 = v := by
  intro m
  induction m with
  | nil => intro k v h; exact absurd h (by simp [alGet?])
  | cons p m ih =>
    intro k v h
    rw [alGet?] at h
    by_cases hp : p.1 = k
    · rw [if_pos hp] at h
      exact ⟨p, List.mem_cons_self p m, hp, (Option.some.injEq _ _).mp h.symm |>.symm⟩
    · rw [if_neg hp] at h
      obtain ⟨q, hq, hk, hv⟩ := ih k v h
      exact ⟨q, List.mem_cons_of_mem p hq, hk, hv⟩

theorem table_root_entry (d : Dataset) (recipe : Recipe) (rate : ℚ) :
    ∃ e, alGet? (processRecipe d (d.length + 1) recipe rate [] ⟨[], [], []⟩).recipes
        recipe.key = some e ∧ e.name = recipe.key ∧ e.outputRate = rate := by
  rw [processRecipe_succ, if_neg (by simp)]
  have hinit : alGet? (tableAddOutputItem
      (tableAddRecipe ⟨[], [], []⟩ recipe.key (craftingTimeOf recipe)
        (rate * craftingTimeOf recipe / (outputAmountOf recipe * craftingSpeed)) rate
        (primaryResult recipe).name)
      (primaryResult recipe).name recipe.key rate).recipes recipe.key =
      some { name := recipe.key, time := craftingTimeOf recipe
             machines := ceil2 (rate * craftingTimeOf recipe /
               (outputAmountOf recipe * craftingSpeed))
             outputRate := rate, produces := (primaryResult recipe).name
             ingredients := [] } := by
    rw [tableAddOutputItem_recipes]
    unfold tableAddRecipe
    rw [alGet?_upsertWith_self]
    rfl
  have hfold := foldl_invariant
    (fun st' => ∃ e, alGet? st'.recipes recipe.key = some e ∧
      e.name = recipe.key ∧ e.outputRate = rate)
    (tableStep d d.length recipe.key (outputAmountOf recipe) rate (recipe.key :: []))
    recipe.ingredients ?_ _ ⟨_, hinit, rfl, rfl⟩
  · exact hfold
  · intro st' ing _ hP
    obtain ⟨e, he, hname, hrate⟩ := hP
    have hIng : ∃ e', alGet? (tableAddIngredient st' recipe.key ing.name
        (ing.amount * rate / outputAmountOf recipe)).recipes recipe.key = some e' ∧
        e'.name = recipe.key ∧ e'.outputRate = rate := by
      unfold tableAddIngredient
      rw [alGet?_upsertWith_self, he]
      exact ⟨_, rfl, hname, hrate⟩
    cases hfind : findRecipeForItem d ing.name with
    | some r' =>
      rw [tableStep_recurse d d.length _ _ _ _ _ _ r' hfind]
      rw [processRecipe_recipes_frozen d recipe.key d.length r' _ _ _ (by simp)]
      exact hIng
    | none =>
      rw [tableStep_raw d d.length _ _ _ _ _ _ hfind]
      rw [tableAddRaw_recipes]
      exact hIng

/-! ## Subgraph lemmas -/

theorem exploreItem_succ (d : Dataset) (meta : ItemsMeta) (maxDepth fuel : Nat)
    (itemName : String) (currentDepth : Nat) (visited : List String) (st : GState) :
    exploreItem d meta maxDepth (fuel + 1) itemName currentDepth visited st =
      if currentDepth > maxDepth then st
      else if visited.contains itemName then st
      else
        d.foldl
          (exploreItemStep meta maxDepth (exploreItem d meta maxDepth fuel)
            itemName currentDepth (itemName :: visited))
          (addGNode st
            { id := "item:" ++ itemName, ty := "item", name := itemName
              group := ((alGet? meta itemName).getD ⟨none, none⟩).group
              subgroup := ((alGet? meta itemName).getD ⟨none, none⟩).subgroup }) := by
  rfl

theorem exploreItemStep_skip (meta : ItemsMeta) (maxDepth : Nat)
    (recurse : String → Nat → List String → GState → GState)
    (itemName : String) (currentDepth : Nat) (visited' : List String)
    (st : GState) (recipe : Recipe)
    (hres : (recipe.results.any fun res => res.name = itemName) = false)
    (hing : (recipe.ingredients.any fun ing => ing.name = itemName) = false) :
    exploreItemStep meta maxDepth recurse itemName currentDepth visited' st recipe = st := by
  unfold exploreItemStep
  rw [hres, hing]
  rfl

/-- The per-claim calculation steps below use the sorted/rounded output
projection directly. -/
theorem calculateRequirements_fullRequirements (d : Dataset) (recipe : Recipe) (rate : ℚ) :
    (calculateRequirements d recipe rate).fullRequirements =
      sortByRateDesc ((calcFullReq d (d.length + 1) recipe rate [] []).map
        fun p => { name := p.1, rate := round2 p.2 }) := by
  rfl

theorem generateRecipeTable_recipes (d : Dataset) (recipe : Recipe) (rate : ℚ) :
    (generateRecipeTable d recipe rate).recipes =
      (processRecipe d (d.length + 1) recipe rate [] ⟨[], [], []⟩).recipes.map
        fun p => p.2 := by
  rfl

theorem generateSankeyData_eq (d : Dataset) (recipe : Recipe) (rate : ℚ) (depth : Nat) :
    generateSankeyData d recipe rate depth =
      buildSankeyData d depth (depth + 1 + 1) recipe rate 0 [] ⟨[], []⟩ := by
  rfl

theorem sankeyStep_links_extend (d : Dataset) (depth fuel recipeNodeId : Nat)
    (outputAmount rate : ℚ) (currentDepth : Nat) (visited' : List String) :
    ∀ (st : SState) (ing : RItem),
      ∃ ext, (sankeyStep d depth fuel recipeNodeId outputAmount rate currentDepth
        visited' st ing).links = st.links ++ ext := by
  intro st ing
  by_cases hcd : currentDepth < depth
  · cases hfind : findRecipeForItem d ing.name with
    | some r' =>
      rw [sankeyStep_recurse d depth fuel _ _ _ _ _ _ _ r' hcd hfind]
      obtain ⟨e, he⟩ := buildSankeyData_links_extend d depth fuel r' _ (currentDepth + 1)
        visited' _
      refine ⟨[⟨(addSNode st ing.name "item").2, recipeNodeId,
        max (1/100) (ing.amount * rate / outputAmount)⟩] ++ e, ?_⟩
      rw [he, addSLink_links, addSNode_links, List.append_assoc]
    | none =>
      rw [sankeyStep_raw d depth fuel _ _ _ _ _ _ _ hcd hfind]
      refine ⟨[⟨(addSNode st ing.name "item").2, recipeNodeId,
        max (1/100) (ing.amount * rate / outputAmount)⟩], ?_⟩
      rw [setNodeRaw_links, addSLink_links, addSNode_links]
  · rw [sankeyStep_atLimit d depth fuel _ _ _ _ _ _ _ hcd]
    refine ⟨[⟨(addSNode st ing.name "item").2, recipeNodeId,
      max (1/100) (ing.amount * rate / outputAmount)⟩], ?_⟩
    rw [addSLink_links, addSNode_links]

theorem generateSankeyData_head_link (d : Dataset) (recipe : Recipe) (rate : ℚ) :
    ∃ l, (generateSankeyData d recipe rate).links.head? = some l ∧
      l.value = max (1/100) rate := by
  rw [generateSankeyData_eq, buildSankeyData_succ,
    if_neg (by decide), if_neg (by simp)]
  obtain ⟨ext, hext⟩ := foldl_links_extend _
    (sankeyStep_links_extend d 3 (3 + 1) _ (outputAmountOf recipe) rate 0
      (recipe.key :: []))
    recipe.ingredients
    (addSLink
      (addSNode (addSNode ⟨[], []⟩ ("Recipe: " ++ recipe.key) "recipe").1
        (primaryResult recipe).name "item").1
      (addSNode (⟨[], []⟩ : SState) ("Recipe: " ++ recipe.key) "recipe").2
      (addSNode (addSNode ⟨[], []⟩ ("Recipe: " ++ recipe.key) "recipe").1
        (primaryResult recipe).name "item").2
      rate)
  rw [hext, addSLink_links, addSNode_links, addSNode_links]
  exact ⟨_, rfl, rfl⟩

/-! # The claims -/

/-- **C1** (counterexample): `calculateFullRequirements` does not round at
each aggregation step.  On `roundData` with target `t` at rate 1, the
accumulated demand for `w` is `1/125 = 0.008`, which is not a two-decimal
value; the code's final output rounds it once to `0.01`, while the
per-step-rounding policy the claim describes (`calcFullReqSpecRounded`)
would yield `0` for `w`. -/
theorem demand_step_rounding_refuted :
    computeAggregateDemand roundData "t" 1 = some [("u", 1), ("w", 1/125), ("v", 1)] ∧
    round2 (1/125) ≠ (1/125 : ℚ) ∧
    calcFullReqSpecRounded roundData 4 roundRecipeT 1 [] [] =
      [("u", 1), ("w", 0), ("v", 1)] ∧
    (calculateRequirements roundData roundRecipeT 1).fullRequirements =
      [⟨"u", 1⟩, ⟨"v", 1⟩, ⟨"w", 1/100⟩] ∧
    sortByRateDesc ((calcFullReqSpecRounded roundData 4 roundRecipeT 1 [] []).map
        fun p => { name := p.1, rate := round2 p.2 }) ≠
      (calculateRequirements roundData roundRecipeT 1).fullRequirements := by
  with_unfolding_all decide

/-- **C1** (amended): in `computeAggregateDemand` / `calculateRequirements`,
ingredient amounts are accumulated exactly (unrounded) at each aggregation
step; rounding to two decimal places happens once, on the final output
list, which is sorted by descending rate. -/
theorem fullRequirements_rounded_once_sorted (d : Dataset) (recipe : Recipe) (rate : ℚ) :
    ((calculateRequirements d recipe rate).fullRequirements).Sorted
      (fun a b => b.rate ≤ a.rate) ∧
    ∀ e ∈ (calculateRequirements d recipe rate).fullRequirements,
      ∃ p ∈ calcFullReq d (d.length + 1) recipe rate [] [],
        e.name = p.1 ∧ e.rate = round2 p.2 := by
  constructor
  · rw [calculateRequirements_fullRequirements]
    exact sorted_sortByRateDesc _
  · intro e he
    rw [calculateRequirements_fullRequirements] at he
    have hperm := sortByRateDesc_perm
      ((calcFullReq d (d.length + 1) recipe rate [] []).map
        fun p => { name := p.1, rate := round2 p.2 })
    rcases List.mem_map.mp (hperm.subset he) with ⟨p, hp, heq⟩
    exact ⟨p, hp, by rw [← heq], by rw [← heq]⟩

/-- Witness for the C1 amended theorem at `roundData`: the output entry
`(w, 0.01)` is the once-rounded image of the raw accumulated total. -/
theorem fullRequirements_rounded_once_sorted_witness :
    ∃ p ∈ calcFullReq roundData (roundData.length + 1) roundRecipeT 1 [] [],
      (FullReq.mk "w" (1/100)).name = p.1 ∧ (FullReq.mk "w" (1/100)).rate = round2 p.2 :=
  (fullRequirements_rounded_once_sorted roundData roundRecipeT 1).2
    ⟨"w", 1/100⟩ (by with_unfolding_all decide)

/-- **C2** (counterexample): `generateRecipeTree` keeps no visited set.  On
the two-recipe cycle, the recipe `rx` at the root reappears two levels
down and is expanded again (its node has a nonempty `children` list), so
"a recipe already on the current descent path is never expanded again" is
false. -/
theorem tree_reexpands_recipe_on_path :
    (generateRecipeTreeDefault cycleData cycleRecipeX 10).recipe = some "rx" ∧
    (((generateRecipeTreeDefault cycleData cycleRecipeX 10).children.headD
        nilNode).children.headD nilNode).recipe = some "rx" ∧
    (((generateRecipeTreeDefault cycleData cycleRecipeX 10).children.headD
        nilNode).children.headD nilNode).children.length = 1 := by
  with_unfolding_all decide

/-- **C2** (amended): the tree builder's recursion is bounded only by the
explicit maximum depth, which defaults to 5: the emitted tree never has
more than `depth + 1` levels (6 levels for the default), with no cycle
truncation. -/
theorem tree_bounded_by_depth_only (d : Dataset) (recipe : Recipe) (rate : ℚ) :
    (∀ depth : Nat, (generateRecipeTree d depth recipe rate).height ≤ depth + 1) ∧
    generateRecipeTreeDefault d recipe rate = generateRecipeTree d 5 recipe rate ∧
    (generateRecipeTreeDefault d recipe rate).height ≤ 6 :=
  ⟨fun depth => generateRecipeTree_height_le d depth recipe rate, rfl,
    generateRecipeTree_height_le d 5 recipe rate⟩

/-- **C3** (counterexample): the flow view floors every link value at
`0.01`, so for the target rate `1/200 = 0.005` the root recipe-to-item
link carries `0.01`, not the requested rate. -/
theorem flow_root_link_floored_below_rate :
    findRecipeForItem exampleData "t" = some exampleRecipe ∧
    ((generateSankeyData exampleData exampleRecipe (1/200)).links.headD
      ⟨0, 0, 0⟩).value = 1/100 ∧
    ((generateSankeyData exampleData exampleRecipe (1/200)).links.headD
      ⟨0, 0, 0⟩).value ≠ 1/200 := by
  with_unfolding_all decide

/-- **C3** (amended): for a target item with a producing recipe, the tree
root's `rate` and the table root entry's `outputRate` equal the requested
rate exactly for every rate; the flow root link's value is
`max(0.01, rate)`, which equals the requested rate whenever the rate is at
least `0.01`. -/
theorem root_rate_exact_above_floor (d : Dataset) (itemName : String) (recipe : Recipe)
    (rate : ℚ) (_hfind : findRecipeForItem d itemName = some recipe) :
    (∀ depth : Nat, (generateRecipeTree d depth recipe rate).rate = rate) ∧
    (∃ e ∈ (generateRecipeTable d recipe rate).recipes,
      e.name = recipe.key ∧ e.outputRate = rate) ∧
    (∃ l, (generateSankeyData d recipe rate).links.head? = some l ∧
      l.value = max (1/100) rate) ∧
    (1/100 ≤ rate →
      ∃ l, (generateSankeyData d recipe rate).links.head? = some l ∧ l.value = rate) := by
  refine ⟨?_, ?_, generateSankeyData_head_link d recipe rate, ?_⟩
  · intro depth
    cases depth <;> rfl
  · obtain ⟨e, he, hname, hrate⟩ := table_root_entry d recipe rate
    obtain ⟨p, hpmem, hp1, hp2⟩ := alGet?_mem _ _ _ he
    rw [generateRecipeTable_recipes]
    exact ⟨e, List.mem_map.mpr ⟨p, hpmem, hp2⟩, hname, hrate⟩
  · intro hge
    obtain ⟨l, hl, hv⟩ := generateSankeyData_head_link d recipe rate
    exact ⟨l, hl, by rw [hv]; exact max_eq_right hge⟩

/-- Witness for the C3 amended theorem: target `t` at rate 10 on
`exampleData`; the flow root link carries exactly 10. -/
theorem root_rate_exact_above_floor_witness :
    ∃ l, (generateSankeyData exampleData exampleRecipe 10).links.head? = some l ∧
      l.value = 10 :=
  (root_rate_exact_above_floor exampleData "t" exampleRecipe 10
    (by with_unfolding_all decide)).2.2.2 (by norm_num)

/-- **C4**: the specification's worked example, on a dataset holding exactly
that recipe: `machinesNeeded = ceil2(10*1/(1*1.25)) = 8`, ingredient
demand `a = 10` and `b = 20` (both in the per-ingredient list and in the
aggregate requirements), with `assumedSpeed = 1.25 = 5/4`. -/
theorem calculateRequirements_example :
    (calculateRequirements exampleData exampleRecipe 10).machinesNeeded = 8 ∧
    (calculateRequirements exampleData exampleRecipe 10).machinesNeeded =
      ceil2 (10 * 1 / (1 * craftingSpeed)) ∧
    craftingSpeed = 5/4 ∧
    ((calculateRequirements exampleData exampleRecipe 10).ingredients.map
      fun i => (i.name, i.amountPerSecond)) = [("a", 10), ("b", 20)] ∧
    (calculateRequirements exampleData exampleRecipe 10).fullRequirements =
      [⟨"b", 20⟩, ⟨"a", 10⟩] := by
  with_unfolding_all decide

/-- **C5**: on the two-recipe cycle (`rx` makes `x` from `y`, `ry` makes `y`
from `x`), `computeAggregateDemand` terminates with `y ↦ 10, x ↦ 10`: the
cycle-closing edge contributes exactly one level of demand (`x ↦ 10`,
added once) and `rx` is not expanded again; the result is the same for
every sufficient fuel bound, so the recursion genuinely stops at the
path-local visited set rather than at the fuel cap. -/
theorem computeAggregateDemand_cycle_terminates :
    computeAggregateDemand cycleData "x" 10 = some [("y", 10), ("x", 10)] ∧
    ∀ k : Nat, calcFullReq cycleData (k + 3) cycleRecipeX 10 [] [] =
      [("y", 10), ("x", 10)] := by
  constructor
  · with_unfolding_all decide
  · intro k
    with_unfolding_all rfl

/-- **C8**: the `/calculate` core fails exactly when the initial target item
has no producing recipe; during descent an ingredient with no producing
recipe is not an error — the demand step adds its contribution to the
running totals without recursing, and the table step records it as a raw
material without recursing. -/
theorem core_failure_only_at_root_lookup (d : Dataset) (itemName : String) (rate : ℚ)
    (fuel : Nat) (outputAmount targetRate : ℚ) (seen' : List String)
    (reqs : Reqs) (recipeKey : String) (st : TState) (ing : RItem)
    (hing : findRecipeForItem d ing.name = none) :
    (calcEndpoint d itemName rate = none ↔ findRecipeForItem d itemName = none) ∧
    demandStep d fuel outputAmount targetRate seen' reqs ing =
      upsertAdd reqs ing.name (ing.amount * targetRate / outputAmount) ∧
    tableStep d fuel recipeKey outputAmount targetRate seen' st ing =
      tableAddRaw (tableAddIngredient st recipeKey ing.name
        (ing.amount * targetRate / outputAmount)) ing.name
        (ing.amount * targetRate / outputAmount) := by
  refine ⟨?_, ?_, tableStep_raw d fuel recipeKey outputAmount targetRate seen' st ing hing⟩
  · unfold calcEndpoint
    cases h : findRecipeForItem d itemName <;> simp
  · unfold demandStep
    rw [hing]

/-- Witness for C8: ingredient `a` of the example recipe has no producer;
its demand step is exactly the accumulation without recursion. -/
theorem core_failure_only_at_root_lookup_witness :
    demandStep exampleData 1 1 10 ["r"] [] ⟨"a", 1⟩ =
      upsertAdd [] "a" ((1 : ℚ) * 10 / 1) := by
  have h := (core_failure_only_at_root_lookup exampleData "t" 10 1 1 10 ["r"] [] "r"
    ⟨[], [], []⟩ ⟨"a", 1⟩ (by with_unfolding_all decide)).2.1
  exact h

/-- **C9** (counterexample): in `chainData` the producerless item `x` is
discovered exactly at the flow view's default depth limit (3) and keeps
the label `item`; it is not relabeled `raw` on first discovery at the
limit as the claim states. -/
theorem sankey_raw_at_depth_limit_refuted :
    findRecipeForItem chainData "x" = none ∧
    ((generateSankeyData chainData chainRecipe0 1).nodes.filter
      fun n => n.name == "x").map (fun n => n.ty) = ["item"] := by
  with_unfolding_all decide

/-- **C9** (amended): an ingredient with no producing recipe is relabeled
`raw` exactly when it is processed strictly below the depth limit (the
relabel overwrites any earlier label); processed at the depth limit it
keeps the label `item`.  Hence the final type depends on the set of
depths at which the item is reached, not on the order of discovery: in
`chainData` the item `x`, reached only at the limit, stays `item`, while
in `chainDataX` the same chain is joined by a direct below-limit use of
`x`, and the node ends as `raw` even though a path reaching `x` at the
limit also exists. -/
theorem sankey_raw_relabel_amended (d : Dataset) (depth fuel recipeNodeId : Nat)
    (outputAmount rate : ℚ) (currentDepth : Nat) (visited' : List String)
    (st : SState) (ing : RItem)
    (hbelow : currentDepth < depth) (hnone : findRecipeForItem d ing.name = none) :
    (sankeyStep d depth fuel recipeNodeId outputAmount rate currentDepth visited' st ing =
      setNodeRaw (addSLink (addSNode st ing.name "item").1 (addSNode st ing.name "item").2
        recipeNodeId (ing.amount * rate / outputAmount)) (addSNode st ing.name "item").2) ∧
    (∀ cd2 : Nat, ¬ cd2 < depth →
      sankeyStep d depth fuel recipeNodeId outputAmount rate cd2 visited' st ing =
        addSLink (addSNode st ing.name "item").1 (addSNode st ing.name "item").2
          recipeNodeId (ing.amount * rate / outputAmount)) ∧
    ((generateSankeyData chainData chainRecipe0 1).nodes.filter
      fun n => n.name == "x").map (fun n => n.ty) = ["item"] ∧
    ((generateSankeyData chainDataX chainRecipe0X 1).nodes.filter
      fun n => n.name == "x").map (fun n => n.ty) = ["raw"] := by
  refine ⟨sankeyStep_raw d depth fuel _ _ _ _ _ _ _ hbelow hnone,
    fun cd2 h2 => sankeyStep_atLimit d depth fuel _ _ _ _ _ _ _ h2, ?_, ?_⟩
  · with_unfolding_all decide
  · with_unfolding_all decide

/-- Witness for the C9 amended theorem: a below-limit step on a
producerless ingredient is exactly the relabel-to-raw step. -/
theorem sankey_raw_relabel_amended_witness :
    sankeyStep chainData 3 1 0 1 1 0 ["s"] ⟨[], []⟩ ⟨"x", 1⟩ =
      setNodeRaw (addSLink (addSNode ⟨[], []⟩ "x" "item").1
        (addSNode (⟨[], []⟩ : SState) "x" "item").2 0 ((1 : ℚ) * 1 / 1))
        (addSNode (⟨[], []⟩ : SState) "x" "item").2 :=
  (sankey_raw_relabel_amended chainData 3 1 0 1 1 0 ["s"] ⟨[], []⟩ ⟨"x", 1⟩
    (by decide) (by with_unfolding_all decide)).1

/-- **C10**: `generateItemSubgraph` never fails; for a seed item that no
recipe produces and no recipe consumes, it returns exactly one node (the
seed item, id `item:<seed>`) and no links. -/
theorem itemSubgraph_isolated_seed (d : Dataset) (meta : ItemsMeta) (s : String)
    (maxDepth : Nat)
    (hprod : ∀ r ∈ d, (r.results.any fun res => res.name = s) = false)
    (hcons : ∀ r ∈ d, (r.ingredients.any fun ing => ing.name = s) = false) :
    (generateItemSubgraph d meta s maxDepth).nodes.map (fun n => n.id) =
      ["item:" ++ s] ∧
    (generateItemSubgraph d meta s maxDepth).links = [] := by
  have hexp : exploreItem d meta maxDepth (maxDepth + 2) s 0 [] ⟨[], []⟩ =
      ⟨[{ id := "item:" ++ s, ty := "item", name := s
          group := ((alGet? meta s).getD ⟨none, none⟩).group
          subgroup := ((alGet? meta s).getD ⟨none, none⟩).subgroup }], []⟩ := by
    have h2 : maxDepth + 2 = (maxDepth + 1) + 1 := rfl
    rw [h2, exploreItem_succ, if_neg (by omega), if_neg (by simp)]
    rw [foldl_fixed _ d
      (fun r hr st => exploreItemStep_skip meta maxDepth _ s 0 (s :: []) st r
        (hprod r hr) (hcons r hr))]
    rfl
  constructor
  · show ((exploreItem d meta maxDepth (maxDepth + 2) s 0 [] ⟨[], []⟩).nodes.map
      fun n => n.id) = ["item:" ++ s]
    rw [hexp]
    rfl
  · show ((exploreItem d meta maxDepth (maxDepth + 2) s 0 [] ⟨[], []⟩).links.map
      (resolveLink (exploreItem d meta maxDepth (maxDepth + 2) s 0 [] ⟨[], []⟩).nodes
        jsOr1)) = []
    rw [hexp]
    rfl

/-- Witness for C10: the seed `zz` is referenced by no recipe of
`roundData`. -/
theorem itemSubgraph_isolated_seed_witness :
    (generateItemSubgraph roundData [] "zz" 2).nodes.map (fun n => n.id) =
      ["item:" ++ "zz"] ∧
    (generateItemSubgraph roundData [] "zz" 2).links = [] :=
  itemSubgraph_isolated_seed roundData [] "zz" 2
    (by with_unfolding_all decide) (by with_unfolding_all decide)

/-! ## Complete-graph counting (C6) -/

theorem gIdx?_isSome_iff (ns : List GNode) (id : String) :
    (gIdx? ns id).isSome ↔ id ∈ ns.map fun n => n.id := by
  induction ns with
  | nil => simp [gIdx?]
  | cons n ns ih =>
    by_cases h : n.id = id
    · simp [gIdx?, h]
    · have h' : ¬ id = n.id := fun hc => h hc.symm
      simp [gIdx?, h, h', ih]

theorem addGNode_links (st : GState) (n : GNode) :
    (addGNode st n).links = st.links := by
  unfold addGNode
  cases gIdx? st.nodes n.id <;> rfl

theorem addGNode_ids (st : GState) (n : GNode) :
    (addGNode st n).nodes.map (fun m => m.id) =
      insFresh (st.nodes.map fun m => m.id) n.id := by
  unfold addGNode insFresh
  cases h : gIdx? st.nodes n.id with
  | some i =>
    rw [if_pos ((gIdx?_isSome_iff st.nodes n.id).mp (by rw [h]; rfl))]
  | none =>
    rw [if_neg fun hc => by
      have := (gIdx?_isSome_iff st.nodes n.id).mpr hc
      rw [h] at this
      exact Bool.noConfusion this]
    simp

theorem mem_insFresh (acc : List String) (id x : String) :
    x ∈ insFresh acc id ↔ x ∈ acc ∨ x = id := by
  unfold insFresh
  by_cases h : id ∈ acc
  · rw [if_pos h]
    constructor
    · exact Or.inl
    · rintro (hx | rfl)
      · exact hx
      · exact h
  · rw [if_neg h]
    simp

theorem addGLinkC_nodes (st : GState) (source target relationship : String) (amount : ℚ) :
    (addGLinkC st source target relationship amount).nodes = st.nodes := by
  unfold addGLinkC
  cases gIdx? st.nodes source <;> cases gIdx? st.nodes target <;> rfl

theorem addGLinkC_links_length (st : GState) (source target relationship : String)
    (amount : ℚ) (hs : source ∈ st.nodes.map fun n => n.id)
    (ht : target ∈ st.nodes.map fun n => n.id) :
    (addGLinkC st source target relationship amount).links.length =
      st.links.length + 1 := by
  obtain ⟨si, hsi⟩ := Option.isSome_iff_exists.mp ((gIdx?_isSome_iff st.nodes source).mpr hs)
  obtain ⟨ti, hti⟩ := Option.isSome_iff_exists.mp ((gIdx?_isSome_iff st.nodes target).mpr ht)
  unfold addGLinkC
  rw [hsi, hti]
  simp

theorem completeResultStep_ids (recipeId : String) (st : GState) (res : RItem) :
    (completeResultStep recipeId st res).nodes.map (fun m => m.id) =
      insFresh (st.nodes.map fun m => m.id) ("item:" ++ res.name) := by
  unfold completeResultStep
  rw [addGLinkC_nodes, addGNode_ids]

theorem completeIngredientStep_ids (recipeId : String) (st : GState) (ing : RItem) :
    (completeIngredientStep recipeId st ing).nodes.map (fun m => m.id) =
      insFresh (st.nodes.map fun m => m.id) ("item:" ++ ing.name) := by
  unfold completeIngredientStep
  rw [addGLinkC_nodes, addGNode_ids]

theorem completeResultStep_links_length (recipeId : String) (st : GState) (res : RItem)
    (hrid : recipeId ∈ st.nodes.map fun n => n.id) :
    (completeResultStep recipeId st res).links.length = st.links.length + 1 := by
  unfold completeResultStep
  rw [addGLinkC_links_length, addGNode_links]
  · rw [addGNode_ids, mem_insFresh]
    exact Or.inl hrid
  · rw [addGNode_ids, mem_insFresh]
    exact Or.inr rfl

theorem completeIngredientStep_links_length (recipeId : String) (st : GState)
    (ing : RItem) (hrid : recipeId ∈ st.nodes.map fun n => n.id) :
    (completeIngredientStep recipeId st ing).links.length = st.links.length + 1 := by
  unfold completeIngredientStep
  rw [addGLinkC_links_length, addGNode_links]
  · rw [addGNode_ids, mem_insFresh]
    exact Or.inr rfl
  · rw [addGNode_ids, mem_insFresh]
    exact Or.inl hrid

theorem completeResultStep_fold (recipeId : String) :
    ∀ (results : List RItem) (st : GState),
      recipeId ∈ st.nodes.map (fun n => n.id) →
      (results.foldl (completeResultStep recipeId) st).links.length =
          st.links.length + results.length ∧
        (results.foldl (completeResultStep recipeId) st).nodes.map (fun m => m.id) =
          (results.map fun e => "item:" ++ e.name).foldl insFresh
            (st.nodes.map fun m => m.id) := by
  intro results
  induction results with
  | nil => intro st _; exact ⟨rfl, rfl⟩
  | cons res results ih =>
    intro st hrid
    rw [List.foldl_cons, List.map_cons, List.foldl_cons]
    have hrid' : recipeId ∈ (completeResultStep recipeId st res).nodes.map
        fun n => n.id := by
      rw [completeResultStep_ids, mem_insFresh]
      exact Or.inl hrid
    obtain ⟨hlen, hids⟩ := ih (completeResultStep recipeId st res) hrid'
    refine ⟨?_, ?_⟩
    · rw [hlen, completeResultStep_links_length recipeId st res hrid,
        List.length_cons]
      omega
    · rw [hids, completeResultStep_ids]

theorem completeIngredientStep_fold (recipeId : String) :
    ∀ (ingredients : List RItem) (st : GState),
      recipeId ∈ st.nodes.map (fun n => n.id) →
      (ingredients.foldl (completeIngredientStep recipeId) st).links.length =
          st.links.length + ingredients.length ∧
        (ingredients.foldl (completeIngredientStep recipeId) st).nodes.map
            (fun m => m.id) =
          (ingredients.map fun e => "item:" ++ e.name).foldl insFresh
            (st.nodes.map fun m => m.id) := by
  intro ingredients
  induction ingredients with
  | nil => intro st _; exact ⟨rfl, rfl⟩
  | cons ing ingredients ih =>
    intro st hrid
    rw [List.foldl_cons, List.map_cons, List.foldl_cons]
    have hrid' : recipeId ∈ (completeIngredientStep recipeId st ing).nodes.map
        fun n => n.id := by
      rw [completeIngredientStep_ids, mem_insFresh]
      exact Or.inl hrid
    obtain ⟨hlen, hids⟩ := ih (completeIngredientStep recipeId st ing) hrid'
    refine ⟨?_, ?_⟩
    · rw [hlen, completeIngredientStep_links_length recipeId st ing hrid,
        List.length_cons]
      omega
    · rw [hids, completeIngredientStep_ids]

theorem completeGraphStep_counts (st : GState) (r : Recipe) :
    (completeGraphStep st r).links.length =
        st.links.length + (r.results.length + r.ingredients.length) ∧
      (completeGraphStep st r).nodes.map (fun m => m.id) =
        (("recipe:" ++ r.key) ::
          (((r.results.map fun e => e.name) ++ (r.ingredients.map fun e => e.name)).map
            fun n => "item:" ++ n)).foldl insFresh (st.nodes.map fun m => m.id) := by
  unfold completeGraphStep
  have hrid : ("recipe:" ++ r.key) ∈ (addGNode st
      { id := "recipe:" ++ r.key, ty := "recipe", name := r.key
        category := r.category, time := some (craftingTimeOf r) }).nodes.map
      fun n => n.id := by
    rw [addGNode_ids, mem_insFresh]
    exact Or.inr rfl
  obtain ⟨hlen1, hids1⟩ := completeResultStep_fold ("recipe:" ++ r.key) r.results _ hrid
  have hrid2 : ("recipe:" ++ r.key) ∈ (r.results.foldl
      (completeResultStep ("recipe:" ++ r.key))
      (addGNode st
        { id := "recipe:" ++ r.key, ty := "recipe", name := r.key
          category := r.category, time := some (craftingTimeOf r) })).nodes.map
      fun n => n.id := by
    rw [hids1]
    exact foldl_invariant (fun acc => "recipe:" ++ r.key ∈ acc) insFresh _
      (fun acc x _ hmem => (mem_insFresh acc x _).mpr (Or.inl hmem)) _ hrid
  obtain ⟨hlen2, hids2⟩ := completeIngredientStep_fold ("recipe:" ++ r.key)
    r.ingredients _ hrid2
  constructor
  · rw [hlen2, hlen1, addGNode_links]
    omega
  · rw [hids2, hids1, addGNode_ids]
    rw [List.foldl_cons, List.map_append, List.foldl_append]
    simp only [List.map_map]
    rfl

theorem foldl_completeGraphStep_counts :
    ∀ (d : Dataset) (st : GState),
      (d.foldl completeGraphStep st).links.length =
          st.links.length + (d.map fun r => r.results.length + r.ingredients.length).sum ∧
        (d.foldl completeGraphStep st).nodes.map (fun m => m.id) =
          (idStream d).foldl insFresh (st.nodes.map fun m => m.id) := by
  intro d
  induction d with
  | nil => intro st; exact ⟨rfl, rfl⟩
  | cons r d ih =>
    intro st
    rw [List.foldl_cons]
    obtain ⟨hlen, hids⟩ := ih (completeGraphStep st r)
    obtain ⟨hlen1, hids1⟩ := completeGraphStep_counts st r
    constructor
    · rw [hlen, hlen1, List.map_cons, List.sum_cons]
      omega
    · rw [hids, hids1]
      have hstream : idStream (r :: d) =
          (("recipe:" ++ r.key) ::
            (((r.results.map fun e => e.name) ++
              (r.ingredients.map fun e => e.name)).map fun n => "item:" ++ n)) ++
            idStream d := by
        unfold idStream
        rw [List.flatMap_cons]
      rw [hstream, List.foldl_append]

theorem mem_foldl_insFresh (x : String) :
    ∀ (l acc : List String), x ∈ l.foldl insFresh acc ↔ x ∈ acc ∨ x ∈ l := by
  intro l
  induction l with
  | nil => intro acc; simp
  | cons a l ih =>
    intro acc
    rw [List.foldl_cons, ih, mem_insFresh]
    constructor
    · rintro ((h | rfl) | h)
      · exact Or.inl h
      · exact Or.inr (List.mem_cons_self _ _)
      · exact Or.inr (List.mem_cons_of_mem _ h)
    · rintro (h | h)
      · exact Or.inl (Or.inl h)
      · rcases List.mem_cons.mp h with rfl | h
        · exact Or.inl (Or.inr rfl)
        · exact Or.inr h

theorem nodup_insFresh (acc : List String) (id : String) (h : acc.Nodup) :
    (insFresh acc id).Nodup := by
  unfold insFresh
  by_cases hmem : id ∈ acc
  · rw [if_pos hmem]; exact h
  · rw [if_neg hmem]
    exact List.Nodup.append h (List.nodup_singleton id)
      (by simpa [List.disjoint_singleton] using hmem)

theorem length_foldl_insFresh :
    ∀ (l acc : List String), acc.Nodup →
      (l.foldl insFresh acc).length = (acc.toFinset ∪ l.toFinset).card := by
  intro l
  induction l with
  | nil =>
    intro acc h
    simp [List.toFinset_card_of_nodup h]
  | cons a l ih =>
    intro acc h
    rw [List.foldl_cons, ih (insFresh acc a) (nodup_insFresh acc a h)]
    have hset : (insFresh acc a).toFinset ∪ l.toFinset =
        acc.toFinset ∪ (a :: l).toFinset := by
      ext x
      simp only [Finset.mem_union, List.mem_toFinset, mem_insFresh, List.mem_cons]
      tauto
    rw [hset]

theorem string_append_left_cancel {s a b : String} (h : s ++ a = s ++ b) : a = b := by
  apply String.ext
  have hd := congrArg String.data h
  rw [String.data_append, String.data_append] at hd
  exact List.append_cancel_left hd

theorem recipeId_ne_itemId (k n : String) : "recipe:" ++ k ≠ "item:" ++ n := by
  intro h
  have hd := congrArg String.data h
  rw [String.data_append, String.data_append] at hd
  have h1 : ("recipe:" : String).data = 'r' :: ("ecipe:" : String).data := rfl
  have h2 : ("item:" : String).data = 'i' :: ("tem:" : String).data := rfl
  rw [h1, h2, List.cons_append, List.cons_append] at hd
  injection hd with hhead _
  exact absurd hhead (by decide)

theorem mem_idStream (d : Dataset) (x : String) :
    x ∈ idStream d ↔
      (∃ r ∈ d, x = "recipe:" ++ r.key) ∨ ∃ n ∈ referencedItems d, x = "item:" ++ n := by
  unfold idStream referencedItems
  simp only [List.mem_flatMap, List.mem_cons, List.mem_map, List.mem_append]
  constructor
  · rintro ⟨r, hr, rfl | ⟨n, hn, rfl⟩⟩
    · exact Or.inl ⟨r, hr, rfl⟩
    · exact Or.inr ⟨n, ⟨r, hr, hn⟩, rfl⟩
  · rintro (⟨r, hr, rfl⟩ | ⟨n, ⟨r, hr, hn⟩, rfl⟩)
    · exact ⟨r, hr, Or.inl rfl⟩
    · exact ⟨r, hr, Or.inr ⟨n, hn, rfl⟩⟩

theorem idStream_toFinset_card (d : Dataset)
    (hkeys : (d.map fun r => r.key).Nodup) :
    (idStream d).toFinset.card = d.length + (referencedItems d).dedup.length := by
  have hsplit : (idStream d).toFinset =
      ((d.map fun r => r.key).toFinset.image fun k => "recipe:" ++ k) ∪
        ((referencedItems d).toFinset.image fun n => "item:" ++ n) := by
    ext x
    simp only [List.mem_toFinset, Finset.mem_union, Finset.mem_image, mem_idStream,
      List.mem_map]
    constructor
    · rintro (⟨r, hr, rfl⟩ | ⟨n, hn, rfl⟩)
      · exact Or.inl ⟨r.key, ⟨r, hr, rfl⟩, rfl⟩
      · exact Or.inr ⟨n, hn, rfl⟩
    · rintro (⟨k, ⟨r, hr, rfl⟩, rfl⟩ | ⟨n, hn, rfl⟩)
      · exact Or.inl ⟨r, hr, rfl⟩
      · exact Or.inr ⟨n, hn, rfl⟩
  rw [hsplit, Finset.card_union_of_disjoint, Finset.card_image_of_injective,
    Finset.card_image_of_injective, List.toFinset_card_of_nodup hkeys,
    List.length_map, List.card_toFinset]
  · exact fun a b h => string_append_left_cancel h
  · exact fun a b h => string_append_left_cancel h
  · rw [Finset.disjoint_left]
    intro x hx1 hx2
    rw [Finset.mem_image] at hx1 hx2
    obtain ⟨k, _, rfl⟩ := hx1
    obtain ⟨n, _, hx⟩ := hx2
    exact recipeId_ne_itemId k n hx.symm

/-- **C6**: for a dataset with (JS-object) unique recipe keys,
`generateCompleteGraph` emits exactly (number of recipes) + (number of
distinct items appearing as an ingredient or result) nodes, and exactly
(total result entries) + (total ingredient entries) links. -/
theorem completeGraph_counts (d : Dataset) (hkeys : (d.map fun r => r.key).Nodup) :
    (generateCompleteGraph d).nodes.length = d.length + (referencedItems d).dedup.length ∧
    (generateCompleteGraph d).links.length =
      (d.map fun r => r.results.length + r.ingredients.length).sum := by
  obtain ⟨hlen, hids⟩ := foldl_completeGraphStep_counts d ⟨[], []⟩
  constructor
  · have hnodes : (generateCompleteGraph d).nodes =
        (d.foldl completeGraphStep ⟨[], []⟩).nodes := rfl
    rw [hnodes, ← List.length_map _ (fun m => m.id), hids]
    have hempty : ((⟨[], []⟩ : GState).nodes.map fun m => m.id) = ([] : List String) := rfl
    rw [hempty, length_foldl_insFresh (idStream d) [] List.nodup_nil]
    have hunion : ([] : List String).toFinset ∪ (idStream d).toFinset =
        (idStream d).toFinset := by simp
    rw [hunion, idStream_toFinset_card d hkeys]
  · have hlinks : (generateCompleteGraph d).links.length =
        (d.foldl completeGraphStep ⟨[], []⟩).links.length := by
      show ((d.foldl completeGraphStep ⟨[], []⟩).links.map _).length = _
      rw [List.length_map]
    rw [hlinks, hlen]
    have h0 : ({ nodes := [], links := [] } : GState).links.length = 0 := rfl
    rw [h0, Nat.zero_add]

/-- Witness for C6 on `roundData`: 7 nodes (3 recipes + 4 distinct items)
and 7 links (3 result entries + 4 ingredient entries). -/
theorem completeGraph_counts_witness :
    (generateCompleteGraph roundData).nodes.length =
      roundData.length + (referencedItems roundData).dedup.length ∧
    (generateCompleteGraph roundData).links.length =
      (roundData.map fun r => r.results.length + r.ingredients.length).sum :=
  completeGraph_counts roundData (by with_unfolding_all decide)

/-! ## Multi-item-graph union (C7) -/

theorem pipe_chunk_inj :
    ∀ (a a' r r' : List Char), '|' ∉ a → '|' ∉ a' →
      a ++ '|' :: r = a' ++ '|' :: r' → a = a' ∧ r = r' := by
  intro a
  induction a with
  | nil =>
    intro a' r r' _ ha' h
    cases a' with
    | nil => simpa using h
    | cons c a' =>
      rw [List.nil_append, List.cons_append] at h
      injection h with h1 _
      exact absurd (by rw [h1]; exact List.mem_cons_self c a') ha'
  | cons b a ih =>
    intro a' r r' ha ha' h
    cases a' with
    | nil =>
      rw [List.cons_append, List.nil_append] at h
      injection h with h1 _
      exact absurd (by rw [← h1]; exact List.mem_cons_self b a) ha
    | cons c a' =>
      rw [List.cons_append, List.cons_append] at h
      injection h with h1 h2
      obtain ⟨haa, hrr⟩ := ih a' r r'
        (fun hm => ha (List.mem_cons_of_mem b hm))
        (fun hm => ha' (List.mem_cons_of_mem c hm)) h2
      exact ⟨by rw [h1, haa], hrr⟩

theorem linkId_data (l : OutLink) :
    (linkId l).data =
      l.source.data ++ '|' :: (l.target.data ++ '|' :: l.relationship.data) := by
  unfold linkId
  repeat rw [String.data_append]
  have hp : ("|" : String).data = ['|'] := rfl
  rw [hp]
  simp [List.append_assoc]

theorem linkId_inj (l l' : OutLink) (h : pipeFreeLink l) (h' : pipeFreeLink l')
    (heq : linkId l = linkId l') : sameTriple l l' := by
  have hd := congrArg String.data heq
  rw [linkId_data, linkId_data] at hd
  obtain ⟨h1, hrest⟩ := pipe_chunk_inj _ _ _ _ h.1 h'.1 hd
  obtain ⟨h2, h3⟩ := pipe_chunk_inj _ _ _ _ h.2.1 h'.2.1 hrest
  exact ⟨String.ext h1, String.ext h2, String.ext h3⟩

theorem mergeNodeStep_fold (gnodes : List GNode) :
    ∀ st : MState, mergeInvN st →
      mergeInvN (gnodes.foldl mergeNodeStep st) ∧
      (∀ n ∈ st.nodes, n ∈ (gnodes.foldl mergeNodeStep st).nodes) ∧
      (∀ n ∈ gnodes, ∃ n' ∈ (gnodes.foldl mergeNodeStep st).nodes, n'.id = n.id) ∧
      (gnodes.foldl mergeNodeStep st).links = st.links ∧
      (gnodes.foldl mergeNodeStep st).allLinks = st.allLinks := by
  induction gnodes with
  | nil =>
    intro st hN
    exact ⟨hN, fun n h => h, fun n h => absurd h (List.not_mem_nil n), rfl, rfl⟩
  | cons node gnodes ih =>
    intro st hN
    rw [List.foldl_cons]
    have hstep : mergeInvN (mergeNodeStep st node) ∧
        (∀ n ∈ st.nodes, n ∈ (mergeNodeStep st node).nodes) ∧
        (∃ n' ∈ (mergeNodeStep st node).nodes, n'.id = node.id) ∧
        (mergeNodeStep st node).links = st.links ∧
        (mergeNodeStep st node).allLinks = st.allLinks := by
      unfold mergeNodeStep
      by_cases hc : st.allNodes.contains node.id
      · rw [if_pos hc]
        have hmem : node.id ∈ st.allNodes := by simpa using hc
        exact ⟨hN, fun n h => h, (hN node.id).mp hmem, rfl, rfl⟩
      · rw [if_neg hc]
        refine ⟨?_, ?_, ?_, rfl, rfl⟩
        · intro id
          dsimp only [mergeInvN]
          simp only [List.mem_append, List.mem_singleton]
          constructor
          · rintro (hid | rfl)
            · obtain ⟨n, hn, hid'⟩ := (hN id).mp hid
              exact ⟨n, Or.inl hn, hid'⟩
            · exact ⟨node, Or.inr rfl, rfl⟩
          · rintro ⟨n, hn, rfl⟩
            rcases hn with hn | rfl
            · exact Or.inl ((hN n.id).mpr ⟨n, hn, rfl⟩)
            · exact Or.inr rfl
        · intro n h
          exact List.mem_append_left _ h
        · exact ⟨node, List.mem_append_right _ (List.mem_singleton_self node), rfl⟩
    obtain ⟨hN', hmono', hcov', hlinks', hall'⟩ := hstep
    obtain ⟨ihN, ihmono, ihcov, ihlinks, ihall⟩ := ih (mergeNodeStep st node) hN'
    refine ⟨ihN, fun n h => ihmono n (hmono' n h), ?_,
      by rw [ihlinks, hlinks'], by rw [ihall, hall']⟩
    intro n hn
    rcases List.mem_cons.mp hn with rfl | hn
    · obtain ⟨n', hn', hid⟩ := hcov'
      exact ⟨n', ihmono n' hn', hid⟩
    · exact ihcov n hn

theorem mergeNodeStep_fold_links (gnodes : List GNode) :
    ∀ st : MState,
      (gnodes.foldl mergeNodeStep st).links = st.links ∧
      (gnodes.foldl mergeNodeStep st).allLinks = st.allLinks := by
  induction gnodes with
  | nil => intro st; exact ⟨rfl, rfl⟩
  | cons node gnodes ih =>
    intro st
    rw [List.foldl_cons]
    have hstep : (mergeNodeStep st node).links = st.links ∧
        (mergeNodeStep st node).allLinks = st.allLinks := by
      unfold mergeNodeStep
      by_cases hc : st.allNodes.contains node.id
      · rw [if_pos hc]; exact ⟨rfl, rfl⟩
      · rw [if_neg hc]; exact ⟨rfl, rfl⟩
    obtain ⟨h1, h2⟩ := ih (mergeNodeStep st node)
    exact ⟨by rw [h1, hstep.1], by rw [h2, hstep.2]⟩

theorem mergeLinkStep_fold_nodes (glinks : List OutLink) :
    ∀ st : MState,
      (glinks.foldl mergeLinkStep st).nodes = st.nodes ∧
      (glinks.foldl mergeLinkStep st).allNodes = st.allNodes := by
  induction glinks with
  | nil => intro st; exact ⟨rfl, rfl⟩
  | cons link glinks ih =>
    intro st
    rw [List.foldl_cons]
    have hstep : (mergeLinkStep st link).nodes = st.nodes ∧
        (mergeLinkStep st link).allNodes = st.allNodes := by
      unfold mergeLinkStep
      by_cases hc : st.allLinks.contains (linkId link)
      · rw [if_pos hc]; exact ⟨rfl, rfl⟩
      · rw [if_neg hc]; exact ⟨rfl, rfl⟩
    obtain ⟨h1, h2⟩ := ih (mergeLinkStep st link)
    exact ⟨by rw [h1, hstep.1], by rw [h2, hstep.2]⟩

theorem mergeLinkStep_fold (d : Dataset) (meta : ItemsMeta) (depth : Nat)
    (seeds : List String)
    (hpf : ∀ t ∈ seeds, ∀ l ∈ (generateItemSubgraph d meta t depth).links,
      pipeFreeLink l) :
    ∀ (glinks : List OutLink) (st : MState), mergeInvL st →
      linksFromSeeds d meta depth seeds st →
      (∀ l ∈ glinks, ∃ t ∈ seeds, l ∈ (generateItemSubgraph d meta t depth).links) →
      mergeInvL (glinks.foldl mergeLinkStep st) ∧
      (∀ l ∈ st.links, l ∈ (glinks.foldl mergeLinkStep st).links) ∧
      (∀ l ∈ glinks, ∃ l' ∈ (glinks.foldl mergeLinkStep st).links, sameTriple l' l) ∧
      linksFromSeeds d meta depth seeds (glinks.foldl mergeLinkStep st) := by
  intro glinks
  induction glinks with
  | nil =>
    intro st hL hO _
    exact ⟨hL, fun l h => h, fun l h => absurd h (List.not_mem_nil l), hO⟩
  | cons link glinks ih =>
    intro st hL hO hg
    rw [List.foldl_cons]
    have hlinkorig := hg link (List.mem_cons_self link glinks)
    have hstep : mergeInvL (mergeLinkStep st link) ∧
        (∀ l ∈ st.links, l ∈ (mergeLinkStep st link).links) ∧
        (∃ l' ∈ (mergeLinkStep st link).links, sameTriple l' link) ∧
        linksFromSeeds d meta depth seeds (mergeLinkStep st link) := by
      unfold mergeLinkStep
      by_cases hc : st.allLinks.contains (linkId link)
      · rw [if_pos hc]
        have hmem : linkId link ∈ st.allLinks := by simpa using hc
        obtain ⟨l'', hl'', hid⟩ := (hL (linkId link)).mp hmem
        obtain ⟨t'', ht'', hl''sub⟩ := hO l'' hl''
        obtain ⟨t, ht, hlsub⟩ := hlinkorig
        have htriple := linkId_inj l'' link (hpf t'' ht'' l'' hl''sub)
          (hpf t ht link hlsub) hid
        exact ⟨hL, fun l h => h, ⟨l'', hl'', htriple⟩, hO⟩
      · rw [if_neg hc]
        refine ⟨?_, ?_, ?_, ?_⟩
        · intro lid
          dsimp only [mergeInvL]
          simp only [List.mem_append, List.mem_singleton]
          constructor
          · rintro (hid | rfl)
            · obtain ⟨l, hl, hid'⟩ := (hL lid).mp hid
              exact ⟨l, Or.inl hl, hid'⟩
            · exact ⟨link, Or.inr rfl, rfl⟩
          · rintro ⟨l, hl, rfl⟩
            rcases hl with hl | rfl
            · exact Or.inl ((hL (linkId l)).mpr ⟨l, hl, rfl⟩)
            · exact Or.inr rfl
        · intro l h
          exact List.mem_append_left _ h
        · exact ⟨link, List.mem_append_right _ (List.mem_singleton_self link),
            ⟨rfl, rfl, rfl⟩⟩
        · intro l hl
          rcases List.mem_append.mp hl with hl | hl
          · exact hO l hl
          · rw [List.mem_singleton] at hl
            exact hl ▸ hlinkorig
    obtain ⟨hL', hmono', hcov', hO'⟩ := hstep
    obtain ⟨ihL, ihmono, ihcov, ihO⟩ := ih (mergeLinkStep st link) hL' hO'
      (fun l hl => hg l (List.mem_cons_of_mem link hl))
    refine ⟨ihL, fun l h => ihmono l (hmono' l h), ?_, ihO⟩
    intro l hl
    rcases List.mem_cons.mp hl with rfl | hl
    · obtain ⟨l', hl', htriple⟩ := hcov'
      exact ⟨l', ihmono l' hl', htriple⟩
    · exact ihcov l hl

theorem multiFold_nodes (d : Dataset) (meta : ItemsMeta) (depth : Nat) :
    ∀ (rest : List String) (st : MState), mergeInvN st →
      mergeInvN (rest.foldl (mergeSeedStep d meta depth) st) ∧
      (∀ n ∈ st.nodes, n ∈ (rest.foldl (mergeSeedStep d meta depth) st).nodes) ∧
      (∀ s ∈ rest, ∀ n ∈ (generateItemSubgraph d meta s depth).nodes,
        ∃ n' ∈ (rest.foldl (mergeSeedStep d meta depth) st).nodes, n'.id = n.id) := by
  intro rest
  induction rest with
  | nil =>
    intro st hN
    exact ⟨hN, fun n h => h, fun s h => absurd h (List.not_mem_nil s)⟩
  | cons t rest ih =>
    intro st hN
    rw [List.foldl_cons]
    obtain ⟨hN1, hmono1, hcov1, hlinks1, hall1⟩ :=
      mergeNodeStep_fold (generateItemSubgraph d meta t depth).nodes st hN
    obtain ⟨hnodes2, hallN2⟩ := mergeLinkStep_fold_nodes
      (generateItemSubgraph d meta t depth).links
      ((generateItemSubgraph d meta t depth).nodes.foldl mergeNodeStep st)
    have hNstep : mergeInvN (mergeSeedStep d meta depth st t) := by
      intro id
      unfold mergeSeedStep mergeSubgraph
      rw [hnodes2, hallN2]
      exact hN1 id
    have hmonostep : ∀ n ∈ st.nodes, n ∈ (mergeSeedStep d meta depth st t).nodes := by
      intro n h
      unfold mergeSeedStep mergeSubgraph
      rw [hnodes2]
      exact hmono1 n h
    have hcovstep : ∀ n ∈ (generateItemSubgraph d meta t depth).nodes,
        ∃ n' ∈ (mergeSeedStep d meta depth st t).nodes, n'.id = n.id := by
      intro n h
      obtain ⟨n', hn', hid⟩ := hcov1 n h
      refine ⟨n', ?_, hid⟩
      unfold mergeSeedStep mergeSubgraph
      rw [hnodes2]
      exact hn'
    obtain ⟨ihN, ihmono, ihcov⟩ := ih (mergeSeedStep d meta depth st t) hNstep
    refine ⟨ihN, fun n h => ihmono n (hmonostep n h), ?_⟩
    intro s hs n hn
    rcases List.mem_cons.mp hs with rfl | hs
    · obtain ⟨n', hn', hid⟩ := hcovstep n hn
      exact ⟨n', ihmono n' hn', hid⟩
    · exact ihcov s hs n hn

theorem multiFold_links (d : Dataset) (meta : ItemsMeta) (depth : Nat)
    (seeds : List String)
    (hpf : ∀ t ∈ seeds, ∀ l ∈ (generateItemSubgraph d meta t depth).links,
      pipeFreeLink l) :
    ∀ (rest : List String) (st : MState), (∀ t ∈ rest, t ∈ seeds) →
      mergeInvL st → linksFromSeeds d meta depth seeds st →
      mergeInvL (rest.foldl (mergeSeedStep d meta depth) st) ∧
      (∀ l ∈ st.links, l ∈ (rest.foldl (mergeSeedStep d meta depth) st).links) ∧
      linksFromSeeds d meta depth seeds (rest.foldl (mergeSeedStep d meta depth) st) ∧
      (∀ s ∈ rest, ∀ l ∈ (generateItemSubgraph d meta s depth).links,
        ∃ l' ∈ (rest.foldl (mergeSeedStep d meta depth) st).links, sameTriple l' l) := by
  intro rest
  induction rest with
  | nil =>
    intro st _ hL hO
    exact ⟨hL, fun l h => h, hO, fun s h => absurd h (List.not_mem_nil s)⟩
  | cons t rest ih =>
    intro st hsub hL hO
    rw [List.foldl_cons]
    have htseeds : t ∈ seeds := hsub t (List.mem_cons_self t rest)
    obtain ⟨hlinks1, hall1⟩ :=
      mergeNodeStep_fold_links (generateItemSubgraph d meta t depth).nodes st
    have hL1 : mergeInvL ((generateItemSubgraph d meta t depth).nodes.foldl
        mergeNodeStep st) := by
      intro lid
      rw [hall1, hlinks1]
      exact hL lid
    have hO1 : linksFromSeeds d meta depth seeds
        ((generateItemSubgraph d meta t depth).nodes.foldl mergeNodeStep st) := by
      intro l hl
      rw [hlinks1] at hl
      exact hO l hl
    obtain ⟨hL2, hmono2, hcov2, hO2⟩ := mergeLinkStep_fold d meta depth seeds hpf
      (generateItemSubgraph d meta t depth).links
      ((generateItemSubgraph d meta t depth).nodes.foldl mergeNodeStep st)
      hL1 hO1 (fun l hl => ⟨t, htseeds, hl⟩)
    have hLstep : mergeInvL (mergeSeedStep d meta depth st t) := hL2
    have hOstep : linksFromSeeds d meta depth seeds (mergeSeedStep d meta depth st t) := hO2
    have hmonostep : ∀ l ∈ st.links, l ∈ (mergeSeedStep d meta depth st t).links := by
      intro l h
      exact hmono2 l (by rw [hlinks1]; exact h)
    have hcovstep : ∀ l ∈ (generateItemSubgraph d meta t depth).links,
        ∃ l' ∈ (mergeSeedStep d meta depth st t).links, sameTriple l' l := hcov2
    obtain ⟨ihL, ihmono, ihO, ihcov⟩ := ih (mergeSeedStep d meta depth st t)
      (fun u hu => hsub u (List.mem_cons_of_mem t hu)) hLstep hOstep
    refine ⟨ihL, fun l h => ihmono l (hmonostep l h), ihO, ?_⟩
    intro s hs l hl
    rcases List.mem_cons.mp hs with rfl | hs
    · obtain ⟨l', hl', htriple⟩ := hcovstep l hl
      exact ⟨l', ihmono l' hl', htriple⟩
    · exact ihcov s hs l hl

/-- **C7** (counterexample): link deduplication in `/multi-item-graph` is by
the concatenated string `source|target|relationship`, which conflates
distinct triples whose ids contain `|`.  In `pipeData`, the subgraph of
`x|item:y` contains the produces link
`(recipe:k, item:x|item:y)`, but the union `multiItemGraph` of the seeds
`y` and `x|item:y` drops it because its `linkId` collides with that of
`(recipe:k|item:x, item:y)`, so the union's link set is not a superset. -/
theorem multiItemGraph_link_superset_refuted :
    ((generateItemSubgraph pipeData [] "x|item:y" 1).links.filter
      fun l => l.source == "recipe:k" && l.target == "item:x|item:y" &&
        l.relationship == "produces") ≠ [] ∧
    ((multiItemGraph pipeData [] ["y", "x|item:y"] 1).links.filter
      fun l => l.source == "recipe:k" && l.target == "item:x|item:y" &&
        l.relationship == "produces") = [] := by
  with_unfolding_all decide

/-- **C7** (amended): `multiItemGraph`'s node set is always a superset (by
id) of each seed's subgraph; its link set is a superset (by
`(source, target, relationship)` triple) of each seed's subgraph provided
no id or relationship string occurring in the seeds' subgraph links
contains the `|` separator (deduplication compares the concatenated
`source|target|relationship` strings). -/
theorem multiItemGraph_superset_amended (d : Dataset) (meta : ItemsMeta)
    (seeds : List String) (depth : Nat) (s : String) (hs : s ∈ seeds) :
    (∀ n ∈ (generateItemSubgraph d meta s depth).nodes,
      ∃ n' ∈ (multiItemGraph d meta seeds depth).nodes, n'.id = n.id) ∧
    ((∀ t ∈ seeds, ∀ l ∈ (generateItemSubgraph d meta t depth).links, pipeFreeLink l) →
      ∀ l ∈ (generateItemSubgraph d meta s depth).links,
        ∃ l' ∈ (multiItemGraph d meta seeds depth).links, sameTriple l' l) := by
  have hmulti_nodes : (multiItemGraph d meta seeds depth).nodes =
      (seeds.foldl (mergeSeedStep d meta depth) ⟨[], [], [], []⟩).nodes := rfl
  have hmulti_links : (multiItemGraph d meta seeds depth).links =
      (seeds.foldl (mergeSeedStep d meta depth) ⟨[], [], [], []⟩).links := rfl
  constructor
  · obtain ⟨_, _, hcov⟩ := multiFold_nodes d meta depth seeds ⟨[], [], [], []⟩
      (by intro id; simp [mergeInvN])
    intro n hn
    rw [hmulti_nodes]
    exact hcov s hs n hn
  · intro hpf l hl
    obtain ⟨_, _, _, hcov⟩ := multiFold_links d meta depth seeds hpf seeds
      ⟨[], [], [], []⟩ (fun t ht => ht)
      (by intro lid; simp [mergeInvL])
      (by intro l hl; exact absurd hl (List.not_mem_nil l))
    rw [hmulti_links]
    exact hcov s hs l hl

/-- Witness for the C7 amended theorem on the pipe-free `cycleData` with
seeds `x` and `y`: the produces link of seed `y`'s subgraph appears in the
union by triple. -/
theorem multiItemGraph_superset_amended_witness :
    ∃ l' ∈ (multiItemGraph cycleData [] ["x", "y"] 1).links,
      sameTriple l' ⟨"recipe:ry", "item:y", "produces", 1⟩ :=
  (multiItemGraph_superset_amended cycleData [] ["x", "y"] 1 "y"
      (by with_unfolding_all decide)).2
    (by with_unfolding_all decide)
    ⟨"recipe:ry", "item:y", "produces", 1⟩
    (by with_unfolding_all decide)

end Pratincole
